import Mathlib

/-!
# Send-wait buffer of the router (`ch5/sendBuf.c`)

A shallow embedding of `AppendSendData`, `GetSendData` and `FreeSendData`.

The C code works on `malloc`ed `DATA_BUF` nodes linked through `next` / `before`
pointers and on `malloc`ed byte buffers.  Memory is modelled as two finite maps
from addresses to objects (one for `DATA_BUF` nodes, one for byte buffers); a
pointer is an `Option Nat` with `none` for `NULL`.  The outcomes of `malloc`,
`time` and `pthread_mutex_lock` are arguments of the operations.  An operation
returns `none` when the C call has no defined result (an invalid dereference or
`free`, a `memcpy` that reads past its source, a walk that never ends).

`SEND_DATA` and `DATA_BUF` are declared in `base.h`; their fields and field
types are read off their uses in `sendBuf.c` (`%lu` for `dno` and
`inBucketSize`, `int` for `size`).
-/

namespace SendBuf

/-! ## Memory -/

/-- C `unsigned char`. -/
abbrev u_char := UInt8

/-- A finite partial map from addresses to allocated objects. -/
def Heap (α : Type) := List (Nat × α)

instance {α : Type} [DecidableEq α] : DecidableEq (Heap α) :=
  inferInstanceAs (DecidableEq (List (Nat × α)))

/-- The object allocated at address `a`, if any. -/
def Heap.get {α : Type} : Heap α → Nat → Option α
  | [], _ => none
  | (k, v) :: r, a => if k = a then some v else Heap.get r a

/-- Release address `a`. -/
def Heap.free {α : Type} : Heap α → Nat → Heap α
  | [], _ => []
  | (k, v) :: r, a => if k = a then Heap.free r a else (k, v) :: Heap.free r a

/-- Store `v` at address `a` (allocating it when it was not allocated). -/
def Heap.set {α : Type} (h : Heap α) (a : Nat) (v : α) : Heap α :=
  (a, v) :: Heap.free h a

/-- Number of entries: no fewer than there are allocated addresses. -/
def Heap.size {α : Type} (h : Heap α) : Nat := List.length h

/-! ## Data model (`base.h`, as used by `sendBuf.c`) -/

/-- Modelled from the spec: the `DATA_BUF` structure of `base.h` (the spec's
Buffered Packet), with the fields `sendBuf.c` reads and writes: the two queue
links, the enqueue time, the `int` size and the pointer to the payload. -/
structure DATA_BUF where
  next : Option Nat
  before : Option Nat
  t : Int
  size : Int
  data : Option Nat
  deriving DecidableEq

/-- Modelled from the spec: the `SEND_DATA` structure of `base.h` (the spec's
Pending-Packet Queue) without its mutex: head, tail and the two
`unsigned long` counters `sendBuf.c` prints with `%lu`. -/
structure SEND_DATA where
  top : Option Nat
  bottom : Option Nat
  dno : Nat
  inBucketSize : Nat
  deriving DecidableEq

/-- The memory the three operations touch: allocated nodes, allocated byte
buffers and the queue header `ip2mac->sd`. -/
structure State where
  nodes : Heap DATA_BUF
  bufs : Heap (List u_char)
  sd : SEND_DATA
  deriving DecidableEq

/-- `#define MAX_BUCKET_SIZE (1024 * 1024)`. -/
def MAX_BUCKET_SIZE : Nat := 1024 * 1024

/-- Modulus of `unsigned long` arithmetic (LP64). -/
def ULONG_MOD : Nat := 2 ^ 64

/-- Largest value of a C `int`. -/
def INT_MAX : Int := 2147483647

/-- Contents of a `DATA_BUF` right after `malloc`: indeterminate in C; every
field is written before it is read. -/
def DATA_BUF.uninit : DATA_BUF := ⟨none, none, 0, 0, none⟩

/-- `unsigned long x; x += (int) n` (also `x -= n` with `-n`). -/
def ulongAdd (x : Nat) (n : Int) : Nat := (((x : Int) + n) % (ULONG_MOD : Int)).toNat

/-! ## The three operations -/

/-- `AppendSendData(ip2mac, deviceNo, addr, data, size)`.

`mallocD` and `mallocData` are the results of the two `malloc` calls (`none` is
`NULL`), `now` is `time(NULL)`, `lockStatus` the result of
`pthread_mutex_lock`.  `data` is the memory readable at the caller's pointer.
The result is the returned `int` and the memory after the call. -/
def AppendSendData (mallocD mallocData : Option Nat) (now lockStatus : Int)
    (s : State) (data : List u_char) (size : Int) : Option (Int × State) :=
  if s.sd.inBucketSize > MAX_BUCKET_SIZE then
    some (-1, s)
  else
    match mallocD with
    | none => some (-1, s)
    | some d =>
      let nodes1 := s.nodes.set d DATA_BUF.uninit
      match mallocData with
      | none => some (-1, { s with nodes := nodes1.free d })
      | some b =>
        let nodes2 := nodes1.set d ⟨none, none, now, size, some b⟩
        -- memcpy(d->data, data, size)
        if 0 ≤ size ∧ size.toNat ≤ data.length then
          let bufs2 := s.bufs.set b (data.take size.toNat)
          if lockStatus ≠ 0 then
            some (-1, { s with nodes := nodes2.free d, bufs := bufs2.free b })
          else
            match s.sd.bottom with
            | none =>
              some (0, { nodes := nodes2, bufs := bufs2,
                         sd := { top := some d, bottom := some d,
                                 dno := (s.sd.dno + 1) % ULONG_MOD,
                                 inBucketSize := ulongAdd s.sd.inBucketSize size } })
            | some bt =>
              -- sd->bottom->next = d
              match nodes2.get bt with
              | none => none
              | some nb =>
                let nodes3 := nodes2.set bt { nb with next := some d }
                -- d->before = sd->bottom
                match nodes3.get d with
                | none => none
                | some nd =>
                  let nodes4 := nodes3.set d { nd with before := some bt }
                  some (0, { nodes := nodes4, bufs := bufs2,
                             sd := { top := s.sd.top, bottom := some d,
                                     dno := (s.sd.dno + 1) % ULONG_MOD,
                                     inBucketSize := ulongAdd s.sd.inBucketSize size } })
        else none

/-- `GetSendData(ip2mac, &size, &data)`.

The result is the returned `int`, the memory after the call and, when they were
written, the values stored in `*size` and `*data`. -/
def GetSendData (lockStatus : Int) (s : State) :
    Option (Int × State × Option (Int × Option Nat)) :=
  match s.sd.top with
  | none => some (-1, s, none)
  | some d =>
    if lockStatus ≠ 0 then
      some (-1, s, none)
    else
      match s.nodes.get d with
      | none => none
      | some nd =>
        let dno := (s.sd.dno + (ULONG_MOD - 1)) % ULONG_MOD
        let ibs := ulongAdd s.sd.inBucketSize (-nd.size)
        match nd.next with
        | none =>
          some (0, { nodes := s.nodes.free d, bufs := s.bufs,
                     sd := { top := none, bottom := none, dno := dno, inBucketSize := ibs } },
                some (nd.size, nd.data))
        | some tp =>
          -- sd->top->before = NULL
          match s.nodes.get tp with
          | none => none
          | some nt =>
            let nodes1 := s.nodes.set tp { nt with before := none }
            match nodes1.get d with
            | none => none
            | some nd1 =>
              some (0, { nodes := nodes1.free d, bufs := s.bufs,
                         sd := { top := some tp, bottom := s.sd.bottom, dno := dno,
                                 inBucketSize := ibs } },
                    some (nd1.size, nd1.data))

/-- The `for (ptr = sd->top; ptr != NULL; ptr = ptr->next) free(ptr->data);`
loop of `FreeSendData`, at most `fuel` tests of the loop condition. -/
def freeLoop (nodes : Heap DATA_BUF) : Nat → Heap (List u_char) → Option Nat →
    Option (Heap (List u_char))
  | 0, _, _ => none
  | _ + 1, bufs, none => some bufs
  | fuel + 1, bufs, some p =>
    match nodes.get p with
    | none => none
    | some n =>
      match n.data with
      | none => freeLoop nodes fuel bufs n.next
      | some b =>
        match bufs.get b with
        | none => none
        | some _ => freeLoop nodes fuel (bufs.free b) n.next

/-- `FreeSendData(ip2mac)`.

The loop is run with one more test than there are allocated nodes: a walk that
needs more has come back to a node it already visited and never ends. -/
def FreeSendData (lockStatus : Int) (s : State) : Option (Int × State) :=
  match s.sd.top with
  | none => some (0, s)
  | some _ =>
    if lockStatus ≠ 0 then
      some (-1, s)
    else
      match freeLoop s.nodes (s.nodes.size + 1) s.bufs s.sd.top with
      | none => none
      | some bufs1 =>
        some (0, { nodes := s.nodes, bufs := bufs1,
                   sd := { s.sd with top := none, bottom := none } })

/-- A queue header with nothing buffered and both counters zero. -/
def SEND_DATA.empty : SEND_DATA := ⟨none, none, 0, 0⟩

/-- An empty queue in an otherwise empty memory. -/
def State.init : State := ⟨[], [], SEND_DATA.empty⟩

/-- The address `p` returned by `malloc` is `NULL` or not currently allocated. -/
def Heap.fresh {α : Type} (h : Heap α) (p : Option Nat) : Bool :=
  match p with
  | none => true
  | some a => (h.get a).isNone

/-! ## Calls and runs -/

/-- One `AppendSendData` call: its arguments and the outcomes of the system
calls it makes. -/
structure Enq where
  mallocD : Option Nat
  mallocData : Option Nat
  now : Int
  lockStatus : Int
  data : List u_char
  size : Int
  deriving DecidableEq

/-- Run the call on `s`. -/
def Enq.call (e : Enq) (s : State) : Option (Int × State) :=
  AppendSendData e.mallocD e.mallocData e.now e.lockStatus s e.data e.size

/-- Both `malloc` results are `NULL` or addresses not allocated in `s`. -/
def Enq.fresh (e : Enq) (s : State) : Bool :=
  s.nodes.fresh e.mallocD && s.bufs.fresh e.mallocData

/-- The call is made as the interface asks: `0 < size`, `size` a C `int`, and
`malloc` behaves. -/
def Enq.admissible (e : Enq) (s : State) : Bool :=
  e.fresh s && decide (0 < e.size) && decide (e.size ≤ INT_MAX)

/-- Both allocations and the lock acquisition succeed. -/
def Enq.sysOk (e : Enq) : Bool :=
  e.mallocD.isSome && e.mallocData.isSome && decide (e.lockStatus = 0)

/-- The bytes `memcpy` reads from the caller: the first `size` bytes. -/
def Enq.payload (e : Enq) : List u_char := e.data.take e.size.toNat

/-- A call of one of the three operations. -/
inductive Call
  | append (e : Enq)
  | get (lockStatus : Int)
  | free (lockStatus : Int)
  deriving DecidableEq

/-- Returned `int` and memory after a call. -/
def exec : Call → State → Option (Int × State)
  | .append e, s => e.call s
  | .get l, s => (GetSendData l s).map (fun r => (r.1, r.2.1))
  | .free l, s => FreeSendData l s

/-- What the caller and the allocator must respect for a call. -/
def Call.admissible : Call → State → Bool
  | .append e, s => e.admissible s
  | .get _, _ => true
  | .free _, _ => true

/-- States reached from an empty queue (any memory around it) by calls of the
three operations, whatever the outcomes of the system calls. -/
inductive Reachable : State → Prop
  | init (nodes : Heap DATA_BUF) (bufs : Heap (List u_char)) :
      Reachable ⟨nodes, bufs, SEND_DATA.empty⟩
  | step {s s' : State} {c : Call} {r : Int} :
      Reachable s → c.admissible s = true → exec c s = some (r, s') → Reachable s'

/-- The calls `es` one after the other, every one of them returning `0`. -/
def appendAll : State → List Enq → Option State
  | s, [] => some s
  | s, e :: es =>
    match e.call s with
    | none => none
    | some (r, s') => if r = 0 then appendAll s' es else none

/-- The calls `es` one after the other, whatever they return: the returned
values and the final memory. -/
def appendRun : State → List Enq → Option (List Int × State)
  | s, [] => some ([], s)
  | s, e :: es =>
    match e.call s with
    | none => none
    | some (r, s') =>
      match appendRun s' es with
      | none => none
      | some (rs, s'') => some (r :: rs, s'')

/-- Every call of the run is admissible in the memory it is made in. -/
def admissibleRun : State → List Enq → Bool
  | _, [] => true
  | s, e :: es =>
    e.admissible s &&
      match e.call s with
      | none => true
      | some (_, s') => admissibleRun s' es

/-- Every `malloc` of the run returns `NULL` or a free address. -/
def freshRun : State → List Enq → Bool
  | _, [] => true
  | s, e :: es =>
    e.fresh s &&
      match e.call s with
      | none => true
      | some (_, s') => freshRun s' es

/-- `n` calls of `GetSendData`, the lock acquired each time and every call
returning `0`: for each call the value stored in `*size` and the bytes found at
the pointer stored in `*data`, then the final memory. -/
def getN : Nat → State → Option (List (Int × Option (List u_char)) × State)
  | 0, s => some ([], s)
  | n + 1, s =>
    match GetSendData 0 s with
    | none => none
    | some (_, _, none) => none
    | some (r, s', some (sz, p)) =>
      if r = 0 then
        match getN n s' with
        | none => none
        | some (rs, s'') => some ((sz, p.bind s'.bufs.get) :: rs, s'')
      else none

/-! ## The queue as a list of packets -/

/-- The nodes met when following `next` from `p`, at most `fuel` of them. -/
def walk (nodes : Heap DATA_BUF) : Nat → Option Nat → List DATA_BUF
  | 0, _ => []
  | _ + 1, none => []
  | fuel + 1, some a =>
    match nodes.get a with
    | none => []
    | some n => n :: walk nodes fuel n.next

/-- The nodes linked from `sd->top`. -/
def State.linked (s : State) : List DATA_BUF :=
  walk s.nodes (s.nodes.size + 1) s.sd.top

/-- The buffered packets, oldest first: the `size` field of each node linked
from `sd->top` and the bytes its `data` pointer leads to. -/
def State.packets (s : State) : List (Int × Option (List u_char)) :=
  s.linked.map (fun n => (n.size, n.data.bind s.bufs.get))

/-- A buffered packet as it lies in memory: the address of its node, the
fields `t`, `size` and `data` of the node, and the bytes at `data`. -/
structure Pkt where
  addr : Nat
  t : Int
  size : Int
  dptr : Nat
  bytes : List u_char
  deriving DecidableEq

/-- The `next` and `before` fields chain the nodes of `ks` in this order, the
first having `before = prev` and the last `next = NULL`. -/
def Linked (nodes : Heap DATA_BUF) : Option Nat → List Pkt → Prop
  | _, [] => True
  | prev, k :: ks =>
    nodes.get k.addr = some ⟨(ks.head?).map Pkt.addr, prev, k.t, k.size, some k.dptr⟩ ∧
      Linked nodes (some k.addr) ks

/-- The memory `s` holds exactly the packets `ks` in its queue. -/
structure Rep (s : State) (ks : List Pkt) : Prop where
  top : s.sd.top = (ks.head?).map Pkt.addr
  bottom : s.sd.bottom = (ks.getLast?).map Pkt.addr
  linked : Linked s.nodes none ks
  nodupAddr : (ks.map Pkt.addr).Nodup
  nodupData : (ks.map Pkt.dptr).Nodup
  bytes : ∀ k ∈ ks, s.bufs.get k.dptr = some k.bytes

/-- The chain of `s` is a well-formed doubly linked list. -/
def WellFormed (s : State) : Prop := ∃ ks, Rep s ks

/-- What a packet looks like from outside: size and bytes. -/
def Pkt.view (k : Pkt) : Int × Option (List u_char) := (k.size, some k.bytes)

/-- Sum of the `size` fields. -/
def sizeSum (ks : List Pkt) : Int := (ks.map Pkt.size).sum

/-- The counters of reachable states: they cover the linked packets, and what
they count beyond them (`dno` by `leakN`, `inBucketSize` by `leakB`) is what
earlier `FreeSendData` calls left behind. -/
structure Counted (s : State) (ks : List Pkt) : Prop where
  pos : ∀ k ∈ ks, 0 < k.size ∧ k.size ≤ INT_MAX
  len : ∀ k ∈ ks, (k.bytes.length : Int) = k.size
  dno : ks.length ≤ s.sd.dno
  bytes : sizeSum ks ≤ s.sd.inBucketSize
  leak : (s.sd.dno : Int) - ks.length ≤ (s.sd.inBucketSize : Int) - sizeSum ks
  bound : (s.sd.inBucketSize : Int) ≤ MAX_BUCKET_SIZE + INT_MAX

/-- Bytes accepted by a run: the sizes of the calls that returned `0`. -/
def accepted : List Enq → List Int → Int
  | e :: es, r :: rs => (if r = 0 then e.size else 0) + accepted es rs
  | _, _ => 0

/-! ## Sample inputs -/

/-- A two-byte packet, its node allocated at address 1 and its buffer at 1. -/
def pktA : Enq := ⟨some 1, some 1, 100, 0, [10, 11], 2⟩

/-- A three-byte packet, its node allocated at address 2 and its buffer at 2. -/
def pktB : Enq := ⟨some 2, some 2, 101, 0, [20, 21, 22], 3⟩

/-- The memory after `pktA`, then `pktB`, were appended to `State.init`. -/
def stateAB : State :=
  { nodes := [(2, ⟨none, some 1, 101, 3, some 2⟩), (1, ⟨some 2, none, 100, 2, some 1⟩)],
    bufs := [(2, [20, 21, 22]), (1, [10, 11])],
    sd := ⟨some 1, some 2, 2, 5⟩ }

/-- The memory after `pktA` was appended to `State.init`. -/
def stateA : State :=
  { nodes := [(1, ⟨none, none, 100, 2, some 1⟩)],
    bufs := [(1, [10, 11])],
    sd := ⟨some 1, some 1, 1, 2⟩ }

/-- A chunk of 1 MiB minus one byte, its node and its buffer allocated at
address `a`. -/
def chunk (a : Nat) : Enq := ⟨some a, some a, 0, 0, List.replicate 1048575 0, 1048575⟩

/-- A packet of 1 MiB plus one byte, its node and its buffer allocated at
address 1. -/
def big : Enq := ⟨some 1, some 1, 0, 0, List.replicate 1048577 0, 1048577⟩

/-- Packets of 10, 20 and 30 bytes, allocated at addresses 1, 2 and 3. -/
def pkt10 : Enq := ⟨some 1, some 1, 0, 0, List.replicate 10 1, 10⟩

/-- See `pkt10`. -/
def pkt20 : Enq := ⟨some 2, some 2, 0, 0, List.replicate 20 2, 20⟩

/-- See `pkt10`. -/
def pkt30 : Enq := ⟨some 3, some 3, 0, 0, List.replicate 30 3, 30⟩

/-- The memory after `pkt10` was appended to `State.init`. -/
def state10 : State :=
  ⟨[(1, ⟨none, none, 0, 10, some 1⟩)], [(1, List.replicate 10 1)], ⟨some 1, some 1, 1, 10⟩⟩

/-- The memory after `pkt10`, `pkt20` were appended to `State.init`. -/
def state30 : State :=
  ⟨[(2, ⟨none, some 1, 0, 20, some 2⟩), (1, ⟨some 2, none, 0, 10, some 1⟩)],
    [(2, List.replicate 20 2), (1, List.replicate 10 1)], ⟨some 1, some 2, 2, 30⟩⟩

/-- The memory after `pkt10`, `pkt20`, `pkt30` were appended to `State.init`. -/
def state60 : State :=
  { nodes := [(3, ⟨none, some 2, 0, 30, some 3⟩), (2, ⟨some 3, some 1, 0, 20, some 2⟩),
              (1, ⟨some 2, none, 0, 10, some 1⟩)],
    bufs := [(3, List.replicate 30 3), (2, List.replicate 20 2), (1, List.replicate 10 1)],
    sd := ⟨some 1, some 3, 3, 60⟩ }

/-- The memory after `FreeSendData` ran on `stateA`. -/
def stateAfreed : State := { stateA with bufs := [], sd := ⟨none, none, 1, 2⟩ }

/-! ## `GetSendData` with another thread in between -/

/-- Lines 123 to 145 of `GetSendData`, run on the memory `t` found once the
lock is held.  With `t.sd.top == NULL` the first statements are `d = NULL;
sd->top = d->next`, which has no defined result. -/
def GetSendDataLocked (t : State) : Option (Int × State × Option (Int × Option Nat)) :=
  match t.sd.top with
  | none => none
  | some d =>
    match t.nodes.get d with
    | none => none
    | some nd =>
      let dno := (t.sd.dno + (ULONG_MOD - 1)) % ULONG_MOD
      let ibs := ulongAdd t.sd.inBucketSize (-nd.size)
      match nd.next with
      | none =>
        some (0, { nodes := t.nodes.free d, bufs := t.bufs,
                   sd := { top := none, bottom := none, dno := dno, inBucketSize := ibs } },
              some (nd.size, nd.data))
      | some tp =>
        match t.nodes.get tp with
        | none => none
        | some nt =>
          let nodes1 := t.nodes.set tp { nt with before := none }
          match nodes1.get d with
          | none => none
          | some nd1 =>
            some (0, { nodes := nodes1.free d, bufs := t.bufs,
                       sd := { top := some tp, bottom := t.sd.bottom, dno := dno,
                               inBucketSize := ibs } },
                  some (nd1.size, nd1.data))

/-- `GetSendData` when other threads run between the test of line 112, made
without the lock on the memory `s`, and the acquisition of the lock at line
117, after which the memory is `t`. -/
def GetSendDataRace (lockStatus : Int) (s t : State) :
    Option (Int × State × Option (Int × Option Nat)) :=
  match s.sd.top with
  | none => some (-1, s, none)
  | some _ =>
    if lockStatus ≠ 0 then
      some (-1, t, none)
    else
      GetSendDataLocked t

/-! ## Walking the chain both ways -/

/-- Addresses met when following `next` from `p`, at most `fuel` of them. -/
def walkNext (nodes : Heap DATA_BUF) : Nat → Option Nat → List Nat
  | 0, _ => []
  | _ + 1, none => []
  | fuel + 1, some a =>
    match nodes.get a with
    | none => []
    | some n => a :: walkNext nodes fuel n.next

/-- Addresses met when following `before` from `p`, at most `fuel` of them. -/
def walkBefore (nodes : Heap DATA_BUF) : Nat → Option Nat → List Nat
  | 0, _ => []
  | _ + 1, none => []
  | fuel + 1, some a =>
    match nodes.get a with
    | none => []
    | some n => a :: walkBefore nodes fuel n.before

/-- Addresses of the nodes reached from `sd->top` through `next`. -/
def State.chain (s : State) : List Nat := walkNext s.nodes (s.nodes.size + 1) s.sd.top

/-- Addresses of the nodes reached from `sd->bottom` through `before`. -/
def State.chainBack (s : State) : List Nat :=
  walkBefore s.nodes (s.nodes.size + 1) s.sd.bottom

/-- The `size` field of the node `sd->bottom` points to, `0` without one. -/
def State.tailSize (s : State) : Int :=
  match s.sd.bottom.bind s.nodes.get with
  | some n => n.size
  | none => 0

/-- Sum of the `size` fields of the nodes linked from `sd->top`. -/
def State.linkedBytes (s : State) : Int := (s.linked.map DATA_BUF.size).sum

/-! ## Memory lemmas -/

theorem Heap.get_free_same {α : Type} (h : Heap α) (a : Nat) : (h.free a).get a = none := by
  induction h with
  | nil => rfl
  | cons kv r ih =>
    obtain ⟨k, v⟩ := kv
    by_cases hk : k = a
    · simp [Heap.free, hk, ih]
    · simp [Heap.free, Heap.get, hk, ih]

theorem Heap.get_free_ne {α : Type} (h : Heap α) {a b : Nat} (hab : a ≠ b) :
    (h.free a).get b = h.get b := by
  induction h with
  | nil => rfl
  | cons kv r ih =>
    obtain ⟨k, v⟩ := kv
    by_cases hk : k = a
    · subst hk
      simp [Heap.free, Heap.get, hab, ih]
    · by_cases hb : k = b
      · subst hb
        simp [Heap.free, Heap.get, hk]
      · simp [Heap.free, Heap.get, hk, hb, ih]

theorem Heap.get_set_same {α : Type} (h : Heap α) (a : Nat) (v : α) :
    (h.set a v).get a = some v := by
  simp [Heap.set, Heap.get]

theorem Heap.get_set_ne {α : Type} (h : Heap α) {a b : Nat} (v : α) (hab : a ≠ b) :
    (h.set a v).get b = h.get b := by
  simp [Heap.set, Heap.get, hab, Heap.get_free_ne h hab]

theorem Heap.free_eq_self {α : Type} (h : Heap α) (a : Nat) (ha : h.get a = none) :
    h.free a = h := by
  induction h with
  | nil => rfl
  | cons kv r ih =>
    obtain ⟨k, v⟩ := kv
    by_cases hk : k = a
    · simp [Heap.get, hk] at ha
    · simp only [Heap.get, hk, if_false] at ha
      simp [Heap.free, hk, ih ha]

theorem Heap.free_free {α : Type} (h : Heap α) (a : Nat) : (h.free a).free a = h.free a :=
  Heap.free_eq_self _ _ (Heap.get_free_same h a)

theorem Heap.free_set_same {α : Type} (h : Heap α) (a : Nat) (v : α) :
    (h.set a v).free a = h.free a := by
  simp [Heap.set, Heap.free, Heap.free_free]

theorem Heap.set_set_same {α : Type} (h : Heap α) (a : Nat) (v w : α) :
    (h.set a v).set a w = h.set a w := by
  simp [Heap.set, Heap.free, Heap.free_free]

theorem Heap.mem_keys_of_get {α : Type} (h : Heap α) {a : Nat} {v : α}
    (ha : h.get a = some v) : a ∈ List.map Prod.fst h := by
  induction h with
  | nil => simp [Heap.get] at ha
  | cons kv r ih =>
    obtain ⟨k, w⟩ := kv
    by_cases hk : k = a
    · simp [hk]
    · simp only [Heap.get, hk, if_false] at ha
      simp [ih ha]

/-- Pairwise distinct allocated addresses are no more than the heap has entries. -/
theorem Heap.length_le_size {α : Type} (h : Heap α) (l : List Nat) (hl : l.Nodup)
    (hall : ∀ a ∈ l, h.get a ≠ none) : l.length ≤ h.size := by
  have hsub : l ⊆ List.map Prod.fst h := by
    intro a ha
    cases hg : h.get a with
    | none => exact absurd hg (hall a ha)
    | some v => exact Heap.mem_keys_of_get h hg
  have := (List.subperm_of_subset hl hsub).length_le
  simpa [Heap.size] using this

theorem Heap.fresh_some {α : Type} {h : Heap α} {a : Nat} (hf : h.fresh (some a) = true) :
    h.get a = none := by
  simpa [Heap.fresh] using hf

/-! ## Chains -/

theorem Linked.congr {nodes nodes' : Heap DATA_BUF} {ks : List Pkt} :
    ∀ {prev : Option Nat}, (∀ k ∈ ks, nodes'.get k.addr = nodes.get k.addr) →
      Linked nodes prev ks → Linked nodes' prev ks := by
  induction ks with
  | nil => intro _ _ _; trivial
  | cons k ks ih =>
    intro prev hsame hl
    refine ⟨?_, ih (fun k' hk' => hsame k' (List.mem_cons_of_mem _ hk')) hl.2⟩
    rw [hsame k (List.mem_cons_self _ _)]
    exact hl.1

theorem Linked.allocated {nodes : Heap DATA_BUF} {ks : List Pkt} :
    ∀ {prev : Option Nat}, Linked nodes prev ks → ∀ k ∈ ks, nodes.get k.addr ≠ none := by
  induction ks with
  | nil => intro _ _ k hk; cases hk
  | cons k ks ih =>
    intro prev hl k' hk'
    rcases List.mem_cons.1 hk' with h | h
    · subst h
      rw [hl.1]
      simp
    · exact ih hl.2 k' h

theorem Linked.length_le {nodes : Heap DATA_BUF} {ks : List Pkt} {prev : Option Nat}
    (hl : Linked nodes prev ks) (hnd : (ks.map Pkt.addr).Nodup) : ks.length ≤ nodes.size := by
  have := Heap.length_le_size nodes (ks.map Pkt.addr) hnd (by
    intro a ha
    obtain ⟨k, hk, rfl⟩ := List.mem_map.1 ha
    exact hl.allocated k hk)
  simpa using this

theorem Linked.walk_eq {nodes : Heap DATA_BUF} {ks : List Pkt} :
    ∀ {prev : Option Nat} {n : Nat}, Linked nodes prev ks → ks.length < n →
      (walk nodes n ((ks.head?).map Pkt.addr)).map (fun d => (d.size, d.data)) =
        ks.map (fun k => (k.size, some k.dptr)) := by
  induction ks with
  | nil =>
    intro prev fuel _ hf
    cases fuel with
    | zero => cases hf
    | succ f => simp [SendBuf.walk]
  | cons k ks ih =>
    intro prev fuel hl hf
    cases fuel with
    | zero => cases hf
    | succ f =>
      have hrec := ih (n := f) hl.2 (by simpa using hf)
      simp only [List.head?_cons, Option.map_some', SendBuf.walk, hl.1, List.map_cons]
      rw [hrec]

theorem Rep.packets_eq {s : State} {ks : List Pkt} (h : Rep s ks) :
    s.packets = ks.map Pkt.view := by
  have hlen : ks.length < s.nodes.size + 1 :=
    Nat.lt_succ_of_le (h.linked.length_le h.nodupAddr)
  have hw := h.linked.walk_eq hlen
  have hmap : s.packets =
      ((walk s.nodes (s.nodes.size + 1) s.sd.top).map (fun n => (n.size, n.data))).map
        (fun p => (p.1, p.2.bind s.bufs.get)) := by
    simp [State.packets, State.linked, List.map_map, Function.comp_def]
  rw [hmap, h.top, hw, List.map_map]
  apply List.map_congr_left
  intro k hk
  simp [Pkt.view, h.bytes k hk]

theorem Rep.linked_length {s : State} {ks : List Pkt} (h : Rep s ks) :
    s.linked.length = ks.length := by
  have hlen : ks.length < s.nodes.size + 1 :=
    Nat.lt_succ_of_le (h.linked.length_le h.nodupAddr)
  have hw := congrArg List.length (h.linked.walk_eq hlen)
  simpa [State.linked, h.top] using hw

theorem Linked.snoc {nodes nodes' : Heap DATA_BUF} {k : Pkt} {z : Nat} {ks : List Pkt} :
    ∀ {prev : Option Nat}, Linked nodes prev ks → ks ≠ [] →
      (ks.getLast?).map Pkt.addr = some z →
      (ks.map Pkt.addr).Nodup →
      k.addr ∉ ks.map Pkt.addr →
      (∀ a, a ≠ z → a ≠ k.addr → nodes'.get a = nodes.get a) →
      (∀ n, nodes.get z = some n → nodes'.get z = some { n with next := some k.addr }) →
      nodes'.get k.addr = some ⟨none, some z, k.t, k.size, some k.dptr⟩ →
      Linked nodes' prev (ks ++ [k]) := by
  induction ks with
  | nil => intro _ _ h; exact absurd rfl h
  | cons k0 ks ih =>
    intro prev hl _ hlast hnd hnew hother hbt hk
    cases ks with
    | nil =>
      have hb : k0.addr = z := by simpa using hlast
      subst hb
      refine ⟨?_, ?_, trivial⟩
      · have := hbt _ hl.1
        simpa using this
      · simpa using hk
    | cons k1 rest =>
      have hlast' : ((k1 :: rest).getLast?).map Pkt.addr = some z := by
        simpa [List.getLast?_cons_cons] using hlast
      have hnd' : ((k1 :: rest).map Pkt.addr).Nodup := (List.nodup_cons.1 hnd).2
      have hk0 : k0.addr ∉ (k1 :: rest).map Pkt.addr := (List.nodup_cons.1 hnd).1
      have hzmem : z ∈ (k1 :: rest).map Pkt.addr := by
        cases hgl : (k1 :: rest).getLast? with
        | none => simp [hgl] at hlast'
        | some kl =>
          have : kl.addr = z := by simpa [hgl] using hlast'
          rw [← this]
          exact List.mem_map_of_mem _ (List.mem_of_getLast?_eq_some hgl)
      have hne1 : k0.addr ≠ z := fun h => hk0 (h ▸ hzmem)
      have hne2 : k0.addr ≠ k.addr := fun h => hnew (by simp [h])
      have hnew' : k.addr ∉ (k1 :: rest).map Pkt.addr := fun h =>
        hnew (by
          simp only [List.map_cons, List.mem_cons] at h ⊢
          exact Or.inr h)
      refine ⟨?_, ih hl.2 (by simp) hlast' hnd' hnew' hother hbt hk⟩
      rw [hother _ hne1 hne2, hl.1]
      simp

/-! ## `AppendSendData` on a well-formed queue -/

/-- With room left, both allocations and the lock succeeding and `size` bytes
readable, the call returns `0` and links one more packet at the tail. -/
theorem Rep.append_ok {s : State} {ks : List Pkt} {e : Enq} {d b : Nat} (h : Rep s ks)
    (hroom : s.sd.inBucketSize ≤ MAX_BUCKET_SIZE)
    (hd : e.mallocD = some d) (hb : e.mallocData = some b) (hlock : e.lockStatus = 0)
    (hsz : 0 ≤ e.size ∧ e.size.toNat ≤ e.data.length) (hf : e.fresh s = true) :
    ∃ s', e.call s = some (0, s') ∧
      Rep s' (ks ++ [⟨d, e.now, e.size, b, e.payload⟩]) ∧
      s'.sd.dno = (s.sd.dno + 1) % ULONG_MOD ∧
      s'.sd.inBucketSize = ulongAdd s.sd.inBucketSize e.size ∧
      (∀ a, a ≠ d → (s'.nodes.get a = none ↔ s.nodes.get a = none)) ∧
      (∀ a, a ≠ b → s'.bufs.get a = s.bufs.get a) := by
  have hfd : s.nodes.get d = none := by
    have : s.nodes.fresh (some d) = true := by
      have := hf
      simp only [Enq.fresh, hd, hb, Bool.and_eq_true] at this
      exact this.1
    exact Heap.fresh_some this
  have hfb : s.bufs.get b = none := by
    have : s.bufs.fresh (some b) = true := by
      have := hf
      simp only [Enq.fresh, hd, hb, Bool.and_eq_true] at this
      exact this.2
    exact Heap.fresh_some this
  have hdnew : d ∉ ks.map Pkt.addr := by
    intro hmem
    obtain ⟨k, hk, hkd⟩ := List.mem_map.1 hmem
    exact h.linked.allocated k hk (hkd ▸ hfd)
  have hbnew : b ∉ ks.map Pkt.dptr := by
    intro hmem
    obtain ⟨k, hk, hkb⟩ := List.mem_map.1 hmem
    have := h.bytes k hk
    rw [hkb, hfb] at this
    cases this
  have hbytes : ∀ k ∈ ks ++ [(⟨d, e.now, e.size, b, e.payload⟩ : Pkt)],
      (s.bufs.set b (e.data.take e.size.toNat)).get k.dptr = some k.bytes := by
    intro k hk
    rcases List.mem_append.1 hk with hk | hk
    · have hne : b ≠ k.dptr := fun hEq => hbnew (hEq ▸ List.mem_map_of_mem _ hk)
      rw [Heap.get_set_ne _ _ hne]
      exact h.bytes k hk
    · have : k = ⟨d, e.now, e.size, b, e.payload⟩ := by simpa using hk
      subst this
      simp [Heap.get_set_same, Enq.payload]
  have hnda : ((ks ++ [(⟨d, e.now, e.size, b, e.payload⟩ : Pkt)]).map Pkt.addr).Nodup := by
    rw [List.map_append, List.nodup_append]
    refine ⟨h.nodupAddr, by simp, ?_⟩
    intro a ha ha'
    have : a = d := by simpa using ha'
    exact hdnew (this ▸ ha)
  have hndd : ((ks ++ [(⟨d, e.now, e.size, b, e.payload⟩ : Pkt)]).map Pkt.dptr).Nodup := by
    rw [List.map_append, List.nodup_append]
    refine ⟨h.nodupData, by simp, ?_⟩
    intro a ha ha'
    have : a = b := by simpa using ha'
    exact hbnew (this ▸ ha)
  have hnot : ¬ s.sd.inBucketSize > MAX_BUCKET_SIZE := Nat.not_lt.2 hroom
  cases hks : ks.getLast? with
  | none =>
    have hnil : ks = [] := List.getLast?_eq_none_iff.1 hks
    subst hnil
    have hbot : s.sd.bottom = none := by simpa using h.bottom
    refine ⟨{ nodes := (s.nodes.set d DATA_BUF.uninit).set d ⟨none, none, e.now, e.size, some b⟩,
              bufs := s.bufs.set b (e.data.take e.size.toNat),
              sd := { top := some d, bottom := some d, dno := (s.sd.dno + 1) % ULONG_MOD,
                      inBucketSize := ulongAdd s.sd.inBucketSize e.size } },
      ?_, ⟨?_, ?_, ?_, hnda, hndd, hbytes⟩, rfl, rfl, ?_, ?_⟩
    · simp only [Enq.call, AppendSendData, hnot, if_false, hd, hb, hsz, and_self, if_true,
        hlock, ne_eq, not_true_eq_false, hbot]
    · simp
    · simp
    · refine ⟨?_, trivial⟩
      simp [Heap.get_set_same]
    · intro a ha
      show (Heap.set _ d _).get a = none ↔ _
      rw [Heap.get_set_ne _ _ (Ne.symm ha), Heap.get_set_ne _ _ (Ne.symm ha)]
    · intro a ha
      exact Heap.get_set_ne _ _ (Ne.symm ha)
  | some kl =>
    have hne : ks ≠ [] := by
      intro hnil
      simp [hnil] at hks
    have hbot : s.sd.bottom = some kl.addr := by simpa [hks] using h.bottom
    have hklmem : kl ∈ ks := List.mem_of_getLast?_eq_some hks
    have hbtd : kl.addr ≠ d := fun hEq => hdnew (hEq ▸ List.mem_map_of_mem _ hklmem)
    obtain ⟨nb, hnb⟩ := Option.ne_none_iff_exists'.1 (h.linked.allocated kl hklmem)
    have hget2 : ((s.nodes.set d DATA_BUF.uninit).set d ⟨none, none, e.now, e.size, some b⟩).get
        kl.addr = some nb := by
      rw [Heap.get_set_ne _ _ (Ne.symm hbtd), Heap.get_set_ne _ _ (Ne.symm hbtd), hnb]
    have hget3 : ((((s.nodes.set d DATA_BUF.uninit).set d
        ⟨none, none, e.now, e.size, some b⟩).set kl.addr { nb with next := some d })).get d =
        some ⟨none, none, e.now, e.size, some b⟩ := by
      rw [Heap.get_set_ne _ _ hbtd, Heap.get_set_same]
    refine ⟨{ nodes := ((((s.nodes.set d DATA_BUF.uninit).set d
                ⟨none, none, e.now, e.size, some b⟩).set kl.addr
                { nb with next := some d })).set d ⟨none, some kl.addr, e.now, e.size, some b⟩,
              bufs := s.bufs.set b (e.data.take e.size.toNat),
              sd := { top := s.sd.top, bottom := some d, dno := (s.sd.dno + 1) % ULONG_MOD,
                      inBucketSize := ulongAdd s.sd.inBucketSize e.size } },
      ?_, ⟨?_, ?_, ?_, hnda, hndd, hbytes⟩, rfl, rfl, ?_, ?_⟩
    · simp only [Enq.call, AppendSendData, hnot, if_false, hd, hb, hsz, and_self, if_true,
        hlock, ne_eq, not_true_eq_false, hbot, hget2, hget3]
    · have : (ks ++ [(⟨d, e.now, e.size, b, e.payload⟩ : Pkt)]).head? = ks.head? := by
        cases ks with
        | nil => exact absurd rfl hne
        | cons k0 r => rfl
      rw [this]
      exact h.top
    · simp
    · refine Linked.snoc (z := kl.addr) h.linked hne (by simp [hks]) h.nodupAddr hdnew ?_ ?_ ?_
      · intro a ha1 ha2
        show (Heap.set _ d _).get a = _
        rw [Heap.get_set_ne _ _ (Ne.symm ha2), Heap.get_set_ne _ _ (Ne.symm ha1),
          Heap.get_set_ne _ _ (Ne.symm ha2), Heap.get_set_ne _ _ (Ne.symm ha2)]
      · intro n hn
        have hnn : n = nb := by
          rw [hnb] at hn
          exact (Option.some.inj hn).symm
        subst hnn
        show (Heap.set _ d _).get kl.addr = _
        rw [Heap.get_set_ne _ _ (Ne.symm hbtd), Heap.get_set_same]
      · show (Heap.set _ d _).get d = _
        rw [Heap.get_set_same]
    · intro a ha
      show (Heap.set _ d _).get a = none ↔ _
      rw [Heap.get_set_ne _ _ (Ne.symm ha)]
      by_cases hab : kl.addr = a
      · subst hab
        rw [Heap.get_set_same, hnb]
        simp
      · rw [Heap.get_set_ne _ _ hab, Heap.get_set_ne _ _ (Ne.symm ha),
          Heap.get_set_ne _ _ (Ne.symm ha)]
    · intro a ha
      exact Heap.get_set_ne _ _ (Ne.symm ha)

/-- What a call that returns `0` has gone through. -/
theorem Enq.call_zero_inv {e : Enq} {s s' : State} (hc : e.call s = some (0, s')) :
    s.sd.inBucketSize ≤ MAX_BUCKET_SIZE ∧ (∃ d, e.mallocD = some d) ∧
      (∃ b, e.mallocData = some b) ∧ e.lockStatus = 0 ∧
      (0 ≤ e.size ∧ e.size.toNat ≤ e.data.length) := by
  unfold Enq.call AppendSendData at hc
  by_cases hover : s.sd.inBucketSize > MAX_BUCKET_SIZE
  · simp [hover] at hc
  · cases hd : e.mallocD with
    | none => simp [hover, hd] at hc
    | some d =>
      cases hb : e.mallocData with
      | none => simp [hover, hd, hb] at hc
      | some b =>
        by_cases hsz : 0 ≤ e.size ∧ e.size.toNat ≤ e.data.length
        · by_cases hl : e.lockStatus = 0
          · exact ⟨Nat.not_lt.1 hover, ⟨d, rfl⟩, ⟨b, rfl⟩, hl, hsz⟩
          · simp [hover, hd, hb, hsz, hl] at hc
        · rw [if_neg hover] at hc
          simp only [hd, hb] at hc
          rw [if_neg hsz] at hc
          cases hc

/-- A call that returns something else than `0` returns `-1` and, `malloc`
having handed out free addresses, leaves the memory as it was. -/
theorem Enq.call_fail {e : Enq} {s s' : State} {r : Int} (hf : e.fresh s = true)
    (hc : e.call s = some (r, s')) (hr : r ≠ 0) : r = -1 ∧ s' = s := by
  unfold Enq.call AppendSendData at hc
  by_cases hover : s.sd.inBucketSize > MAX_BUCKET_SIZE
  · simp only [hover, if_true, Option.some.injEq, Prod.mk.injEq] at hc
    exact ⟨hc.1.symm, hc.2.symm⟩
  · cases hd : e.mallocD with
    | none =>
      simp only [hover, if_false, hd, Option.some.injEq, Prod.mk.injEq] at hc
      exact ⟨hc.1.symm, hc.2.symm⟩
    | some d =>
      have hfd : s.nodes.get d = none := by
        have := hf
        simp only [Enq.fresh, hd, Bool.and_eq_true] at this
        exact Heap.fresh_some this.1
      cases hb : e.mallocData with
      | none =>
        simp only [hover, if_false, hd, hb, Option.some.injEq, Prod.mk.injEq] at hc
        refine ⟨hc.1.symm, ?_⟩
        rw [← hc.2, Heap.free_set_same, Heap.free_eq_self _ _ hfd]
      | some b =>
        have hfb : s.bufs.get b = none := by
          have := hf
          simp only [Enq.fresh, hb, Bool.and_eq_true] at this
          exact Heap.fresh_some this.2
        by_cases hsz : 0 ≤ e.size ∧ e.size.toNat ≤ e.data.length
        · by_cases hl : e.lockStatus = 0
          · simp only [hover, if_false, hd, hb, hsz, and_self, if_true, hl, ne_eq,
              not_true_eq_false] at hc
            exfalso
            cases hbot : s.sd.bottom with
            | none =>
              simp only [hbot, Option.some.injEq, Prod.mk.injEq] at hc
              exact hr hc.1.symm
            | some bt =>
              simp only [hbot] at hc
              split at hc
              · cases hc
              · split at hc
                · cases hc
                · simp only [Option.some.injEq, Prod.mk.injEq] at hc
                  exact hr hc.1.symm
          · simp only [hover, if_false, hd, hb, hsz, and_self, if_true, hl, ne_eq,
              not_false_eq_true, Option.some.injEq, Prod.mk.injEq] at hc
            refine ⟨hc.1.symm, ?_⟩
            rw [← hc.2, Heap.free_set_same, Heap.free_set_same, Heap.free_set_same,
              Heap.free_eq_self _ _ hfd, Heap.free_eq_self _ _ hfb]
        · rw [if_neg hover] at hc
          simp only [hd, hb] at hc
          rw [if_neg hsz] at hc
          cases hc

/-- A call made with the byte budget exceeded returns `-1` at once. -/
theorem Enq.call_overflow (e : Enq) {s : State} (hover : s.sd.inBucketSize > MAX_BUCKET_SIZE) :
    e.call s = some (-1, s) := by
  simp [Enq.call, AppendSendData, hover]

/-- A successful call on a well-formed queue appends the submitted packet. -/
theorem Rep.append_inv {s s' : State} {ks : List Pkt} {e : Enq} (h : Rep s ks)
    (hf : e.fresh s = true) (hc : e.call s = some (0, s')) :
    ∃ d b, e.mallocD = some d ∧ e.mallocData = some b ∧
      Rep s' (ks ++ [⟨d, e.now, e.size, b, e.payload⟩]) ∧
      s'.sd.dno = (s.sd.dno + 1) % ULONG_MOD ∧
      s'.sd.inBucketSize = ulongAdd s.sd.inBucketSize e.size := by
  obtain ⟨hroom, ⟨d, hd⟩, ⟨b, hb⟩, hl, hsz⟩ := Enq.call_zero_inv hc
  obtain ⟨s'', hc', hrep, hdno, hib, _, _⟩ := h.append_ok hroom hd hb hl hsz hf
  rw [hc] at hc'
  have : s' = s'' := by
    simpa using hc'
  subst this
  exact ⟨d, b, hd, hb, hrep, hdno, hib⟩

/-! ## `GetSendData` on a well-formed queue -/

/-- With a packet buffered and the lock acquired, the call returns `0`, hands
out the head packet and leaves the others linked in the same order. -/
theorem Rep.get_ok {s : State} {k : Pkt} {ks : List Pkt} (h : Rep s (k :: ks)) :
    ∃ s', GetSendData 0 s = some (0, s', some (k.size, some k.dptr)) ∧ Rep s' ks ∧
      s'.bufs = s.bufs ∧ s'.nodes.get k.addr = none ∧
      s'.sd.dno = (s.sd.dno + (ULONG_MOD - 1)) % ULONG_MOD ∧
      s'.sd.inBucketSize = ulongAdd s.sd.inBucketSize (-k.size) := by
  have htop : s.sd.top = some k.addr := by simpa using h.top
  have hk := h.linked.1
  have hnd := List.nodup_cons.1 (by simpa using h.nodupAddr : (k.addr :: ks.map Pkt.addr).Nodup)
  have hndd := List.nodup_cons.1 (by simpa using h.nodupData : (k.dptr :: ks.map Pkt.dptr).Nodup)
  have hbytes : ∀ k' ∈ ks, s.bufs.get k'.dptr = some k'.bytes :=
    fun k' hk' => h.bytes k' (List.mem_cons_of_mem _ hk')
  cases ks with
  | nil =>
    refine ⟨{ nodes := s.nodes.free k.addr, bufs := s.bufs,
              sd := { top := none, bottom := none,
                      dno := (s.sd.dno + (ULONG_MOD - 1)) % ULONG_MOD,
                      inBucketSize := ulongAdd s.sd.inBucketSize (-k.size) } },
      ?_, ⟨rfl, rfl, trivial, by simp, by simp, by simp⟩, rfl, Heap.get_free_same _ _, rfl, rfl⟩
    simp only [GetSendData, htop, hk, ne_eq, not_true_eq_false, if_false, List.head?_nil,
      Option.map_none']
  | cons k1 rest =>
    have hk1 := h.linked.2.1
    have hne : k1.addr ≠ k.addr := by
      intro hEq
      exact hnd.1 (by simp [hEq])
    have hget : (s.nodes.set k1.addr
        ⟨(rest.head?).map Pkt.addr, none, k1.t, k1.size, some k1.dptr⟩).get k.addr =
        some ⟨some k1.addr, none, k.t, k.size, some k.dptr⟩ := by
      rw [Heap.get_set_ne _ _ hne, hk]
      simp
    refine ⟨{ nodes := (s.nodes.set k1.addr
                ⟨(rest.head?).map Pkt.addr, none, k1.t, k1.size, some k1.dptr⟩).free k.addr,
              bufs := s.bufs,
              sd := { top := some k1.addr, bottom := s.sd.bottom,
                      dno := (s.sd.dno + (ULONG_MOD - 1)) % ULONG_MOD,
                      inBucketSize := ulongAdd s.sd.inBucketSize (-k.size) } },
      ?_, ⟨rfl, ?_, ⟨?_, ?_⟩, hnd.2, hndd.2, hbytes⟩, rfl, Heap.get_free_same _ _, rfl, rfl⟩
    · simp only [GetSendData, htop, hk, ne_eq, not_true_eq_false, if_false, List.head?_cons,
        Option.map_some', hk1, hget]
    · show s.sd.bottom = _
      rw [h.bottom, List.getLast?_cons_cons]
    · show (Heap.free _ k.addr).get k1.addr = _
      rw [Heap.get_free_ne _ (Ne.symm hne), Heap.get_set_same]
    · refine Linked.congr ?_ h.linked.2.2
      intro k' hk'
      have hnd1 := List.nodup_cons.1 (by simpa using hnd.2 :
        (k1.addr :: rest.map Pkt.addr).Nodup)
      have h1 : k.addr ≠ k'.addr := by
        intro hEq
        apply hnd.1
        rw [hEq]
        exact List.mem_map_of_mem _ (List.mem_cons_of_mem _ hk')
      have h2 : k1.addr ≠ k'.addr := by
        intro hEq
        apply hnd1.1
        rw [hEq]
        exact List.mem_map_of_mem _ hk'
      show (Heap.free _ k.addr).get k'.addr = _
      rw [Heap.get_free_ne _ h1, Heap.get_set_ne _ _ h2]

/-- A call that returns something else than `0` returns `-1`, writes nothing
and leaves the memory as it was; it does so when `sd->top` is `NULL` or the
lock is not acquired. -/
theorem GetSendData_fail {l r : Int} {s s' : State} {out : Option (Int × Option Nat)}
    (hc : GetSendData l s = some (r, s', out)) (hr : r ≠ 0) :
    r = -1 ∧ s' = s ∧ out = none ∧ (s.sd.top = none ∨ l ≠ 0) := by
  unfold GetSendData at hc
  cases htop : s.sd.top with
  | none =>
    simp only [htop, Option.some.injEq, Prod.mk.injEq] at hc
    exact ⟨hc.1.symm, hc.2.1.symm, hc.2.2.symm, Or.inl rfl⟩
  | some d =>
    by_cases hl : l = 0
    · exfalso
      simp only [htop, hl, ne_eq, not_true_eq_false, if_false] at hc
      split at hc
      · cases hc
      · split at hc
        · simp only [Option.some.injEq, Prod.mk.injEq] at hc
          exact hr hc.1.symm
        · split at hc
          · cases hc
          · split at hc
            · cases hc
            · simp only [Option.some.injEq, Prod.mk.injEq] at hc
              exact hr hc.1.symm
    · simp only [htop, hl, ne_eq, not_false_eq_true, if_true, Option.some.injEq,
        Prod.mk.injEq] at hc
      exact ⟨hc.1.symm, hc.2.1.symm, hc.2.2.symm, Or.inr hl⟩

/-- On a queue with `sd->top == NULL` the call returns `-1` at once. -/
theorem GetSendData_empty (l : Int) {s : State} (htop : s.sd.top = none) :
    GetSendData l s = some (-1, s, none) := by
  simp [GetSendData, htop]

/-- When the lock is not acquired the call returns `-1`. -/
theorem GetSendData_lock {l : Int} (s : State) (hl : l ≠ 0) :
    GetSendData l s = some (-1, s, none) := by
  unfold GetSendData
  cases s.sd.top <;> simp [hl]

/-! ## `FreeSendData` on a well-formed queue -/

theorem freeLoop_linked {nodes : Heap DATA_BUF} {ks : List Pkt} :
    ∀ {prev : Option Nat} {n : Nat} {bufs : Heap (List u_char)},
      Linked nodes prev ks → (ks.map Pkt.dptr).Nodup →
      (∀ k ∈ ks, bufs.get k.dptr = some k.bytes) → ks.length < n →
      ∃ bufs', freeLoop nodes n bufs ((ks.head?).map Pkt.addr) = some bufs' ∧
        (∀ k ∈ ks, bufs'.get k.dptr = none) ∧
        (∀ a, a ∉ ks.map Pkt.dptr → bufs'.get a = bufs.get a) := by
  induction ks with
  | nil =>
    intro prev fuel bufs _ _ _ hf
    cases fuel with
    | zero => cases hf
    | succ f =>
      exact ⟨bufs, by simp [freeLoop], by simp, fun _ _ => rfl⟩
  | cons k ks ih =>
    intro prev fuel bufs hl hnd hb hf
    cases fuel with
    | zero => cases hf
    | succ f =>
      have hnd' := List.nodup_cons.1 (by simpa using hnd : (k.dptr :: ks.map Pkt.dptr).Nodup)
      have hb' : ∀ k' ∈ ks, (bufs.free k.dptr).get k'.dptr = some k'.bytes := by
        intro k' hk'
        have hne : k.dptr ≠ k'.dptr := by
          intro hEq
          apply hnd'.1
          rw [hEq]
          exact List.mem_map_of_mem _ hk'
        rw [Heap.get_free_ne _ hne]
        exact hb k' (List.mem_cons_of_mem _ hk')
      obtain ⟨bufs', hrun, hfreed, hkeep⟩ :=
        ih (n := f) hl.2 hnd'.2 hb' (by simpa using hf)
      refine ⟨bufs', ?_, ?_, ?_⟩
      · simp only [List.head?_cons, Option.map_some', freeLoop, hl.1,
          hb k (List.mem_cons_self _ _)]
        exact hrun
      · intro k' hk'
        rcases List.mem_cons.1 hk' with hEq | hmem
        · subst hEq
          rw [hkeep _ hnd'.1]
          exact Heap.get_free_same _ _
        · exact hfreed k' hmem
      · intro a ha
        have ha1 : k.dptr ≠ a := by
          intro hEq
          apply ha
          simp [hEq]
        have ha2 : a ∉ ks.map Pkt.dptr := by
          intro hmem
          apply ha
          simp only [List.map_cons, List.mem_cons]
          exact Or.inr hmem
        rw [hkeep a ha2, Heap.get_free_ne _ ha1]

/-- A result of the loop does not depend on how much fuel was left over. -/
theorem freeLoop_more_fuel {nodes : Heap DATA_BUF} :
    ∀ {n : Nat} {bufs r : Heap (List u_char)} {p : Option Nat},
      freeLoop nodes n bufs p = some r → freeLoop nodes (n + 1) bufs p = some r := by
  intro n
  induction n with
  | zero =>
    intro bufs r p h
    simp [freeLoop] at h
  | succ n ih =>
    intro bufs r p h
    cases p with
    | none => simpa [freeLoop] using h
    | some a =>
      rw [freeLoop] at h ⊢
      cases hn : nodes.get a with
      | none => simp [hn] at h
      | some d =>
        simp only [hn] at h ⊢
        cases hd : d.data with
        | none =>
          simp only [hd] at h ⊢
          exact ih h
        | some b =>
          simp only [hd] at h ⊢
          cases hb : bufs.get b with
          | none => simp [hb] at h
          | some v =>
            simp only [hb] at h ⊢
            exact ih h

/-- With the lock acquired the call returns `0` and unlinks everything; the
nodes stay allocated and both counters keep their values. -/
theorem Rep.free_ok {s : State} {ks : List Pkt} (h : Rep s ks) :
    ∃ s', FreeSendData 0 s = some (0, s') ∧ Rep s' [] ∧ s'.nodes = s.nodes ∧
      s'.sd.dno = s.sd.dno ∧ s'.sd.inBucketSize = s.sd.inBucketSize ∧
      (∀ k ∈ ks, s'.bufs.get k.dptr = none) := by
  cases ks with
  | nil =>
    have htop : s.sd.top = none := by simpa using h.top
    exact ⟨s, by simp [FreeSendData, htop], h, rfl, rfl, rfl, by simp⟩
  | cons k ks =>
    have htop : s.sd.top = some k.addr := by simpa using h.top
    have hlen : (k :: ks).length < s.nodes.size + 1 :=
      Nat.lt_succ_of_le (h.linked.length_le h.nodupAddr)
    obtain ⟨bufs', hrun, hfreed, _⟩ := freeLoop_linked h.linked h.nodupData h.bytes hlen
    rw [← h.top] at hrun
    refine ⟨{ nodes := s.nodes, bufs := bufs', sd := { s.sd with top := none, bottom := none } },
      ?_, ⟨rfl, rfl, trivial, by simp, by simp, by simp⟩, rfl, rfl, rfl, hfreed⟩
    unfold FreeSendData
    rw [hrun]
    simp [htop]

/-- A call that returns something else than `0` returns `-1` and leaves the
memory as it was; it does so when the lock is not acquired. -/
theorem FreeSendData_fail {l r : Int} {s s' : State}
    (hc : FreeSendData l s = some (r, s')) (hr : r ≠ 0) : r = -1 ∧ s' = s ∧ l ≠ 0 := by
  unfold FreeSendData at hc
  cases htop : s.sd.top with
  | none =>
    simp only [htop, Option.some.injEq, Prod.mk.injEq] at hc
    exact absurd hc.1.symm hr
  | some d =>
    by_cases hl : l = 0
    · exfalso
      simp only [htop, hl, ne_eq, not_true_eq_false, if_false] at hc
      split at hc
      · cases hc
      · simp only [Option.some.injEq, Prod.mk.injEq] at hc
        exact hr hc.1.symm
    · simp only [htop, hl, ne_eq, not_false_eq_true, if_true, Option.some.injEq,
        Prod.mk.injEq] at hc
      exact ⟨hc.1.symm, hc.2.symm, hl⟩

/-- When the lock is not acquired the call changes nothing. -/
theorem FreeSendData_lock {l : Int} (s : State) (hl : l ≠ 0) :
    ∃ r, FreeSendData l s = some (r, s) := by
  unfold FreeSendData
  cases s.sd.top with
  | none => exact ⟨0, rfl⟩
  | some d => exact ⟨-1, by simp [hl]⟩

/-! ## Counters -/

theorem ULONG_MOD_eq : ULONG_MOD = 18446744073709551616 := by
  norm_num [ULONG_MOD]

theorem MAX_BUCKET_SIZE_eq : MAX_BUCKET_SIZE = 1048576 := by
  norm_num [MAX_BUCKET_SIZE]

theorem INT_MAX_eq : INT_MAX = 2147483647 := rfl

/-- An `unsigned long` update that stays within range is exact. -/
theorem ulongAdd_exact {x : Nat} {n : Int} (h0 : 0 ≤ (x : Int) + n)
    (h1 : (x : Int) + n < 18446744073709551616) : (ulongAdd x n : Int) = x + n := by
  unfold ulongAdd
  rw [ULONG_MOD_eq]
  have : ((x : Int) + n) % ((18446744073709551616 : Nat) : Int) = x + n :=
    Int.emod_eq_of_lt h0 (by exact_mod_cast h1)
  rw [this]
  exact Int.toNat_of_nonneg h0

theorem sizeSum_cons (k : Pkt) (ks : List Pkt) : sizeSum (k :: ks) = k.size + sizeSum ks := by
  simp [sizeSum]

theorem sizeSum_append (ks ks' : List Pkt) : sizeSum (ks ++ ks') = sizeSum ks + sizeSum ks' := by
  simp [sizeSum]

/-- Packets of positive size: there are no more of them than bytes. -/
theorem length_le_sizeSum {ks : List Pkt} (hpos : ∀ k ∈ ks, 0 < k.size ∧ k.size ≤ INT_MAX) :
    (ks.length : Int) ≤ sizeSum ks := by
  induction ks with
  | nil => simp [sizeSum]
  | cons k ks ih =>
    have h1 := (hpos k (List.mem_cons_self _ _)).1
    have h2 := ih (fun k' hk' => hpos k' (List.mem_cons_of_mem _ hk'))
    rw [sizeSum_cons]
    simp only [List.length_cons, Nat.cast_add, Nat.cast_one]
    omega

theorem Counted.zero_counters (nodes : Heap DATA_BUF) (bufs : Heap (List u_char)) :
    Counted ⟨nodes, bufs, SEND_DATA.empty⟩ [] := by
  refine ⟨by simp, by simp, by simp, ?_, ?_, ?_⟩
  · simp [sizeSum, SEND_DATA.empty]
  · simp [sizeSum, SEND_DATA.empty]
  · simp [SEND_DATA.empty, MAX_BUCKET_SIZE_eq, INT_MAX_eq]

/-- In a counted state both counters are far from wrapping around. -/
theorem Counted.small {s : State} {ks : List Pkt} (h : Counted s ks) :
    (s.sd.dno : Int) ≤ s.sd.inBucketSize ∧ (s.sd.inBucketSize : Int) ≤ 1048576 + 2147483647 := by
  have h1 := length_le_sizeSum h.pos
  have h2 := h.leak
  have h3 := h.bound
  rw [MAX_BUCKET_SIZE_eq, INT_MAX_eq] at h3
  constructor
  · omega
  · exact_mod_cast h3

/-- Counters after an accepted `AppendSendData`. -/
theorem Counted.append_exact {s s' : State} {ks : List Pkt} {k : Pkt} (h : Counted s ks)
    (hroom : s.sd.inBucketSize ≤ MAX_BUCKET_SIZE) (hpos : 0 < k.size ∧ k.size ≤ INT_MAX)
    (hlen : (k.bytes.length : Int) = k.size)
    (hdno : s'.sd.dno = (s.sd.dno + 1) % ULONG_MOD)
    (hib : s'.sd.inBucketSize = ulongAdd s.sd.inBucketSize k.size) :
    Counted s' (ks ++ [k]) ∧ s'.sd.dno = s.sd.dno + 1 ∧
      (s'.sd.inBucketSize : Int) = s.sd.inBucketSize + k.size := by
  have hsmall := h.small
  have hM := MAX_BUCKET_SIZE_eq
  have hI := INT_MAX_eq
  rw [hM] at hroom
  rw [hI] at hpos
  have hd : s'.sd.dno = s.sd.dno + 1 := by
    rw [hdno, ULONG_MOD_eq]
    apply Nat.mod_eq_of_lt
    omega
  have hb : (s'.sd.inBucketSize : Int) = s.sd.inBucketSize + k.size := by
    rw [hib]
    apply ulongAdd_exact <;> omega
  refine ⟨⟨?_, ?_, ?_, ?_, ?_, ?_⟩, hd, hb⟩
  · intro k' hk'
    rcases List.mem_append.1 hk' with hk' | hk'
    · exact h.pos k' hk'
    · have : k' = k := by simpa using hk'
      subst this
      rw [hI]
      exact hpos
  · intro k' hk'
    rcases List.mem_append.1 hk' with hk' | hk'
    · exact h.len k' hk'
    · have : k' = k := by simpa using hk'
      subst this
      exact hlen
  · have := h.dno
    simp only [List.length_append, List.length_singleton]
    omega
  · have := h.bytes
    rw [sizeSum_append, hb]
    simp only [sizeSum, List.map_cons, List.map_nil, List.sum_cons, List.sum_nil, add_zero]
    simp only [sizeSum] at this
    omega
  · have := h.leak
    rw [sizeSum_append, hb, hd]
    simp only [sizeSum, List.map_cons, List.map_nil, List.sum_cons, List.sum_nil, add_zero,
      List.length_append, List.length_singleton, Nat.cast_add, Nat.cast_one] at this ⊢
    omega
  · rw [hb, hM, hI]
    push_cast
    omega

/-- Counters after a successful `GetSendData`. -/
theorem Counted.get_exact {s s' : State} {ks : List Pkt} {k : Pkt} (h : Counted s (k :: ks))
    (hdno : s'.sd.dno = (s.sd.dno + (ULONG_MOD - 1)) % ULONG_MOD)
    (hib : s'.sd.inBucketSize = ulongAdd s.sd.inBucketSize (-k.size)) :
    Counted s' ks ∧ s'.sd.dno + 1 = s.sd.dno ∧
      (s'.sd.inBucketSize : Int) + k.size = s.sd.inBucketSize := by
  have hsmall := h.small
  have hpos := h.pos
  have hk := (hpos k (List.mem_cons_self _ _))
  have hpos' : ∀ k' ∈ ks, 0 < k'.size ∧ k'.size ≤ INT_MAX :=
    fun k' hk' => hpos k' (List.mem_cons_of_mem _ hk')
  have hls := length_le_sizeSum hpos'
  have hdn := h.dno
  have hby := h.bytes
  have hlk := h.leak
  have hbd := h.bound
  rw [sizeSum_cons] at hby hlk
  simp only [List.length_cons, Nat.cast_add, Nat.cast_one] at hdn hlk
  have hd : s'.sd.dno + 1 = s.sd.dno := by
    rw [hdno, ULONG_MOD_eq]
    have : (s.sd.dno + (18446744073709551616 - 1)) % 18446744073709551616 = s.sd.dno - 1 := by
      omega
    rw [this]
    omega
  have hb : (s'.sd.inBucketSize : Int) + k.size = s.sd.inBucketSize := by
    rw [hib, ulongAdd_exact] <;> omega
  refine ⟨⟨hpos', fun k' hk' => h.len k' (List.mem_cons_of_mem _ hk'), ?_, ?_, ?_, ?_⟩, hd, hb⟩
  · omega
  · omega
  · omega
  · omega

/-- Counters after `FreeSendData` has unlinked the packets. -/
theorem Counted.free_kept {s s' : State} {ks : List Pkt} (h : Counted s ks)
    (hdno : s'.sd.dno = s.sd.dno) (hib : s'.sd.inBucketSize = s.sd.inBucketSize) :
    Counted s' [] := by
  have hls := length_le_sizeSum h.pos
  have hdn := h.dno
  have hby := h.bytes
  have hlk := h.leak
  have hbd := h.bound
  refine ⟨by simp, by simp, by simp, ?_, ?_, ?_⟩
  · simp only [sizeSum, List.map_nil, List.sum_nil]
    omega
  · rw [hdno, hib]
    simp only [sizeSum, List.map_nil, List.sum_nil, List.length_nil, Nat.cast_zero]
    omega
  · rw [hib]
    exact hbd

/-! ## Reachable states -/

theorem Enq.payload_length {e : Enq} (hsz : 0 ≤ e.size ∧ e.size.toNat ≤ e.data.length) :
    (e.payload.length : Int) = e.size := by
  simp only [Enq.payload, List.length_take]
  rw [Nat.min_eq_left hsz.2]
  exact Int.toNat_of_nonneg hsz.1

theorem Enq.admissible_iff {e : Enq} {s : State} :
    e.admissible s = true ↔ e.fresh s = true ∧ 0 < e.size ∧ e.size ≤ INT_MAX := by
  simp [Enq.admissible, and_assoc]

/-- An accepted admissible `AppendSendData` on a counted well-formed queue. -/
theorem append_step {s s' : State} {ks : List Pkt} {e : Enq} (hR : Rep s ks)
    (hC : Counted s ks) (ha : e.admissible s = true) (hc : e.call s = some (0, s')) :
    ∃ k : Pkt, k.size = e.size ∧ k.bytes = e.payload ∧ Rep s' (ks ++ [k]) ∧
      Counted s' (ks ++ [k]) ∧ s'.sd.dno = s.sd.dno + 1 ∧
      (s'.sd.inBucketSize : Int) = s.sd.inBucketSize + e.size := by
  obtain ⟨hf, hpos, hmax⟩ := Enq.admissible_iff.1 ha
  obtain ⟨hroom, _, _, _, hsz⟩ := Enq.call_zero_inv hc
  obtain ⟨d, b, _, _, hrep, hdno, hib⟩ := hR.append_inv hf hc
  obtain ⟨hcnt, hd, hb⟩ := hC.append_exact (k := ⟨d, e.now, e.size, b, e.payload⟩) hroom
    ⟨hpos, hmax⟩ (Enq.payload_length hsz) hdno hib
  exact ⟨_, rfl, rfl, hrep, hcnt, hd, hb⟩

/-- Every call keeps the queue well formed and its counters covering it. -/
theorem step_inv {s s' : State} {c : Call} {r : Int} {ks : List Pkt} (hR : Rep s ks)
    (hC : Counted s ks) (ha : c.admissible s = true) (hx : exec c s = some (r, s')) :
    ∃ ks', Rep s' ks' ∧ Counted s' ks' := by
  cases c with
  | append e =>
    by_cases hr : r = 0
    · subst hr
      obtain ⟨k, _, _, hrep, hcnt, _, _⟩ := append_step hR hC ha hx
      exact ⟨_, hrep, hcnt⟩
    · have hf := (Enq.admissible_iff.1 ha).1
      obtain ⟨_, hs⟩ := Enq.call_fail hf hx hr
      subst hs
      exact ⟨ks, hR, hC⟩
  | get l =>
    simp only [exec, Option.map_eq_some'] at hx
    obtain ⟨⟨r0, s0, out⟩, hget, hEq⟩ := hx
    simp only [Prod.mk.injEq] at hEq
    obtain ⟨hr0, hs0⟩ := hEq
    subst hr0 hs0
    by_cases hr : r0 = 0
    · subst hr
      cases ks with
      | nil =>
        have htop : s.sd.top = none := by simpa using hR.top
        rw [GetSendData_empty l htop] at hget
        simp at hget
      | cons k ks =>
        by_cases hl : l = 0
        · subst hl
          obtain ⟨s1, hget1, hrep, _, _, hdno, hib⟩ := hR.get_ok
          rw [hget] at hget1
          have hs : s0 = s1 := by
            simp only [Option.some.injEq, Prod.mk.injEq] at hget1
            exact hget1.2.1
          subst hs
          exact ⟨ks, hrep, (hC.get_exact hdno hib).1⟩
        · rw [GetSendData_lock s hl] at hget
          simp at hget
    · obtain ⟨_, hs, _, _⟩ := GetSendData_fail hget hr
      subst hs
      exact ⟨ks, hR, hC⟩
  | free l =>
    simp only [exec] at hx
    by_cases hr : r = 0
    · subst hr
      by_cases hl : l = 0
      · subst hl
        obtain ⟨s1, hfree1, hrep, _, hdno, hib, _⟩ := hR.free_ok
        rw [hx] at hfree1
        have hs : s' = s1 := by
          simp only [Option.some.injEq, Prod.mk.injEq] at hfree1
          exact hfree1.2
        subst hs
        exact ⟨[], hrep, hC.free_kept hdno hib⟩
      · obtain ⟨r1, hfree1⟩ := FreeSendData_lock s hl
        rw [hx] at hfree1
        have hs : s' = s := by
          simp only [Option.some.injEq, Prod.mk.injEq] at hfree1
          exact hfree1.2
        subst hs
        exact ⟨ks, hR, hC⟩
    · obtain ⟨_, hs, _⟩ := FreeSendData_fail hx hr
      subst hs
      exact ⟨ks, hR, hC⟩

theorem Rep.empty_queue (nodes : Heap DATA_BUF) (bufs : Heap (List u_char)) :
    Rep ⟨nodes, bufs, SEND_DATA.empty⟩ [] :=
  ⟨rfl, rfl, trivial, by simp, by simp, by simp⟩

/-- Reachable states hold a well-formed queue covered by its counters. -/
theorem Reachable.inv {s : State} (h : Reachable s) : ∃ ks, Rep s ks ∧ Counted s ks := by
  induction h with
  | init nodes bufs => exact ⟨[], Rep.empty_queue nodes bufs, Counted.zero_counters nodes bufs⟩
  | step _ ha hx ih =>
    obtain ⟨ks, hR, hC⟩ := ih
    exact step_inv hR hC ha hx

theorem Reachable.wellFormed {s : State} (h : Reachable s) : WellFormed s := by
  obtain ⟨ks, hR, _⟩ := h.inv
  exact ⟨ks, hR⟩

/-! ## Runs -/

/-- A run of accepted calls appends the submitted packets in order. -/
theorem appendAll_repr {es : List Enq} :
    ∀ {s s' : State} {ks : List Pkt}, Rep s ks → freshRun s es = true →
      appendAll s es = some s' →
      ∃ ks', Rep s' (ks ++ ks') ∧
        ks'.map Pkt.view = es.map (fun e => (e.size, some e.payload)) := by
  induction es with
  | nil =>
    intro s s' ks hR _ happ
    simp only [appendAll, Option.some.injEq] at happ
    subst happ
    exact ⟨[], by simpa using hR, rfl⟩
  | cons e es ih =>
    intro s s' ks hR hfr happ
    cases hcall : e.call s with
    | none => simp [appendAll, hcall] at happ
    | some res =>
      obtain ⟨r, s1⟩ := res
      by_cases hr : r = 0
      · subst hr
        simp only [appendAll, hcall, if_true] at happ
        simp only [freshRun, hcall, Bool.and_eq_true] at hfr
        obtain ⟨d, b, _, _, hR1, _, _⟩ := hR.append_inv hfr.1 hcall
        obtain ⟨ks', hR', hview⟩ := ih hR1 hfr.2 happ
        refine ⟨⟨d, e.now, e.size, b, e.payload⟩ :: ks', by simpa using hR', ?_⟩
        simp [hview, Pkt.view]
      · simp [appendAll, hcall, hr] at happ

/-- Dequeuing as many times as there are packets hands them out in order. -/
theorem getN_repr {ks : List Pkt} :
    ∀ {s : State}, Rep s ks →
      ∃ s', getN ks.length s = some (ks.map Pkt.view, s') ∧ Rep s' [] := by
  induction ks with
  | nil =>
    intro s hR
    exact ⟨s, rfl, hR⟩
  | cons k ks ih =>
    intro s hR
    obtain ⟨s1, hget, hR1, hbufs, _, _, _⟩ := hR.get_ok
    obtain ⟨s2, hrec, hR2⟩ := ih hR1
    refine ⟨s2, ?_, hR2⟩
    have hb : s1.bufs.get k.dptr = some k.bytes := by
      rw [hbufs]
      exact hR.bytes k (List.mem_cons_self _ _)
    simp [getN, hget, hrec, hb, Pkt.view]

theorem Reachable.of_stateA : Reachable stateA :=
  Reachable.step (c := .append pktA) (r := 0) (Reachable.init [] []) (by decide) (by decide)

theorem Reachable.of_stateAB : Reachable stateAB :=
  Reachable.step (c := .append pktB) (r := 0) Reachable.of_stateA (by decide) (by decide)

/-! ## Claims -/

/-- C1 (FIFO order).  Whatever the memory around an empty queue, when the
`AppendSendData` calls `es` all return `0` (every `malloc` of the run handing
out a free address), the next `es.length` calls of `GetSendData`, the lock
acquired each time, all return `0` and store in `*size` and `*data` the
submitted sizes and the submitted bytes (the `size` bytes read at the caller's
pointer), in the order of the `AppendSendData` calls. -/
theorem C1_fifo_order (nodes : Heap DATA_BUF) (bufs : Heap (List u_char)) (es : List Enq)
    (s : State) (hfresh : freshRun ⟨nodes, bufs, SEND_DATA.empty⟩ es = true)
    (happ : appendAll ⟨nodes, bufs, SEND_DATA.empty⟩ es = some s) :
    ∃ s', getN es.length s = some (es.map (fun e => (e.size, some e.payload)), s') := by
  obtain ⟨ks, hR, hview⟩ := appendAll_repr (Rep.empty_queue nodes bufs) hfresh happ
  simp only [List.nil_append] at hR
  obtain ⟨s', hget, _⟩ := getN_repr hR
  have hlen : ks.length = es.length := by
    simpa using congrArg List.length hview
  rw [hlen, hview] at hget
  exact ⟨s', hget⟩

/-- The run `pktA`, `pktB` on the empty queue, then two `GetSendData`. -/
theorem C1_fifo_order_witness :
    freshRun State.init [pktA, pktB] = true ∧
      appendAll State.init [pktA, pktB] = some stateAB ∧
      ∃ s', getN 2 stateAB = some ([(2, some [10, 11]), (3, some [20, 21, 22])], s') :=
  ⟨by decide, by decide, C1_fifo_order [] [] [pktA, pktB] stateAB (by decide) (by decide)⟩

/-- C2 (count/size invariant), evaluated where it breaks: appending the
two-byte packet `pktA` to the empty queue and then calling `FreeSendData`
reaches a state with `top` and `bottom` `NULL` and no packet linked, while
`dno` is still 1 and `inBucketSize` still 2. -/
theorem C2_counters_stale_after_free :
    ∃ s1 s2, exec (.append pktA) State.init = some (0, s1) ∧
      exec (.free 0) s1 = some (0, s2) ∧ Reachable s2 ∧
      s2.sd.top = none ∧ s2.sd.bottom = none ∧ s2.packets = [] ∧
      s2.sd.dno = 1 ∧ s2.sd.inBucketSize = 2 :=
  ⟨stateA, { stateA with bufs := [], sd := ⟨none, none, 1, 2⟩ }, by decide, by decide,
    Reachable.step (c := .free 0) (r := 0) Reachable.of_stateA (by decide) (by decide),
    by decide, by decide, by decide, by decide, by decide⟩

/-- C3 (`FreeSendData` clears the whole queue), evaluated where it breaks: on
the reachable two-packet queue `stateAB` the call returns `0` with `top` and
`bottom` `NULL`, but `dno` is still 2 and `inBucketSize` still 5. -/
theorem C3_free_keeps_counters :
    Reachable stateAB ∧
      ∃ s', FreeSendData 0 stateAB = some (0, s') ∧ s'.sd.top = none ∧ s'.sd.bottom = none ∧
        s'.sd.dno = 2 ∧ s'.sd.inBucketSize = 5 :=
  ⟨Reachable.of_stateAB, { stateAB with bufs := [], sd := ⟨none, none, 2, 5⟩ }, by decide,
    by decide, by decide, by decide, by decide⟩

/-- C4 (admission depends only on the bytes already buffered).  On a
well-formed queue, for a payload of `size > 0` with `size` bytes readable, both
allocations (of free addresses) and the lock succeeding, `AppendSendData`
returns `-1` with the memory untouched exactly when `inBucketSize` is above
`MAX_BUCKET_SIZE = 1048576` before the call, and returns `0` otherwise: the
size of the new payload plays no part. -/
theorem C4_admission (s : State) (e : Enq) (hwf : WellFormed s) (hf : e.fresh s = true)
    (hsys : e.sysOk = true) (hpos : 0 < e.size) (hdata : e.size.toNat ≤ e.data.length) :
    MAX_BUCKET_SIZE = 1048576 ∧
      ∃ r s', e.call s = some (r, s') ∧
        (r = -1 ↔ s.sd.inBucketSize > MAX_BUCKET_SIZE) ∧
        (r = 0 ↔ s.sd.inBucketSize ≤ MAX_BUCKET_SIZE) ∧ (r = -1 → s' = s) := by
  refine ⟨MAX_BUCKET_SIZE_eq, ?_⟩
  by_cases hover : s.sd.inBucketSize > MAX_BUCKET_SIZE
  · refine ⟨-1, s, e.call_overflow hover, by simp [hover], ?_, fun _ => rfl⟩
    constructor
    · intro h
      cases h
    · intro h
      exact absurd hover (Nat.not_lt.2 h)
  · obtain ⟨ks, hR⟩ := hwf
    simp only [Enq.sysOk, Bool.and_eq_true, decide_eq_true_eq, Option.isSome_iff_exists] at hsys
    obtain ⟨⟨⟨d, hd⟩, ⟨b, hb⟩⟩, hl⟩ := hsys
    obtain ⟨s', hc, _⟩ := hR.append_ok (Nat.not_lt.1 hover) hd hb hl ⟨le_of_lt hpos, hdata⟩ hf
    refine ⟨0, s', hc, ?_, by simp [Nat.not_lt.1 hover], ?_⟩
    · constructor
      · intro h
        cases h
      · intro h
        exact absurd h hover
    · intro h
      cases h

/-- Appending `pktB` to the one-packet queue `stateA`. -/
theorem C4_admission_witness :
    MAX_BUCKET_SIZE = 1048576 ∧
      ∃ r s', pktB.call stateA = some (r, s') ∧
        (r = -1 ↔ stateA.sd.inBucketSize > MAX_BUCKET_SIZE) ∧
        (r = 0 ↔ stateA.sd.inBucketSize ≤ MAX_BUCKET_SIZE) ∧ (r = -1 → s' = stateA) :=
  C4_admission stateA pktB Reachable.of_stateA.wellFormed (by decide) (by decide) (by decide)
    (by decide)

/-- Two accepted calls in a row on an empty queue: what the second leaves. -/
theorem two_appends (nodes : Heap DATA_BUF) (bufs : Heap (List u_char)) (e1 e2 : Enq)
    (h1 : 0 < e1.size ∧ e1.size ≤ 1048576) (h2 : 0 < e2.size ∧ e2.size ≤ INT_MAX)
    (hsys1 : e1.sysOk = true) (hsys2 : e2.sysOk = true)
    (hdata1 : e1.size.toNat ≤ e1.data.length) (hdata2 : e2.size.toNat ≤ e2.data.length)
    (hf1 : e1.fresh ⟨nodes, bufs, SEND_DATA.empty⟩ = true)
    (hf2 : e2.fresh ⟨nodes, bufs, SEND_DATA.empty⟩ = true)
    (hned : e1.mallocD ≠ e2.mallocD) (hneb : e1.mallocData ≠ e2.mallocData) :
    ∃ s1 s2, e1.call ⟨nodes, bufs, SEND_DATA.empty⟩ = some (0, s1) ∧
      e2.call s1 = some (0, s2) ∧ s1.sd.dno = 1 ∧ s2.sd.dno = 2 ∧
      (s1.sd.inBucketSize : Int) = e1.size ∧
      (s2.sd.inBucketSize : Int) = e1.size + e2.size := by
  simp only [Enq.sysOk, Bool.and_eq_true, decide_eq_true_eq, Option.isSome_iff_exists] at hsys1 hsys2
  obtain ⟨⟨⟨d1, hd1⟩, ⟨b1, hb1⟩⟩, hl1⟩ := hsys1
  obtain ⟨⟨⟨d2, hd2⟩, ⟨b2, hb2⟩⟩, hl2⟩ := hsys2
  have hM := MAX_BUCKET_SIZE_eq
  have hI := INT_MAX_eq
  obtain ⟨s1, hc1, hR1, hdno1, hib1, hfn, hfb⟩ :=
    (Rep.empty_queue nodes bufs).append_ok (e := e1) (by simp [SEND_DATA.empty]) hd1 hb1 hl1
      ⟨le_of_lt h1.1, hdata1⟩ hf1
  have hC1 := (Counted.zero_counters nodes bufs).append_exact (k := ⟨d1, e1.now, e1.size, b1, e1.payload⟩)
    (by simp [SEND_DATA.empty])
    (show 0 < e1.size ∧ e1.size ≤ INT_MAX from ⟨h1.1, by rw [hI]; omega⟩)
    (Enq.payload_length ⟨le_of_lt h1.1, hdata1⟩) hdno1 hib1
  obtain ⟨hC1, hd1', hb1'⟩ := hC1
  simp only [SEND_DATA.empty, Nat.cast_zero, zero_add] at hd1' hb1'
  have hroom : s1.sd.inBucketSize ≤ MAX_BUCKET_SIZE := by
    rw [hM]
    have := h1.2
    omega
  have hfresh2 : e2.fresh s1 = true := by
    simp only [Enq.fresh, hd2, hb2, hd1, hb1, Heap.fresh, Bool.and_eq_true,
      Option.isNone_iff_eq_none] at hf2 hf1 ⊢
    have hdd : d2 ≠ d1 := by
      intro hEq
      apply hned
      rw [hd1, hd2, hEq]
    have hbb : b2 ≠ b1 := by
      intro hEq
      apply hneb
      rw [hb1, hb2, hEq]
    exact ⟨(hfn d2 hdd).2 hf2.1, by rw [hfb b2 hbb]; exact hf2.2⟩
  obtain ⟨s2, hc2, _, hdno2, hib2, _, _⟩ :=
    hR1.append_ok hroom hd2 hb2 hl2 ⟨le_of_lt h2.1, hdata2⟩ hfresh2
  obtain ⟨_, hd2', hb2'⟩ := hC1.append_exact (k := ⟨d2, e2.now, e2.size, b2, e2.payload⟩) hroom h2
    (Enq.payload_length ⟨le_of_lt h2.1, hdata2⟩) hdno2 hib2
  refine ⟨s1, s2, hc1, hc2, hd1', ?_, hb1', ?_⟩
  · rw [hd2', hd1']
  · rw [hb2', hb1']

/-- C5 as stated fails: two chunks of 1 MiB minus one byte (each below 1 MiB,
together above it) appended to the empty queue are both accepted; the second
call returns `0`, not `-1`, and changes the memory. -/
theorem C5_second_chunk_accepted :
    (chunk 1).size < 1048576 ∧ (chunk 2).size < 1048576 ∧
      (chunk 1).size + (chunk 2).size > 1048576 ∧
      ∃ s1 s2, (chunk 1).call State.init = some (0, s1) ∧
        (chunk 2).call s1 = some (0, s2) ∧ s2 ≠ s1 := by
  refine ⟨by decide, by decide, by decide, ?_⟩
  obtain ⟨s1, s2, hc1, hc2, hd1, hd2, _, _⟩ :=
    two_appends [] [] (chunk 1) (chunk 2) (by decide) (by decide) (by decide) (by decide)
      (by simp only [chunk, List.length_replicate]; decide) (by simp only [chunk, List.length_replicate]; decide) (by decide) (by decide) (by decide) (by decide)
  refine ⟨s1, s2, hc1, hc2, ?_⟩
  intro hEq
  rw [hEq, hd1] at hd2
  cases hd2

/-- C5 (two-chunk scenario) as the code has it.  For every pair of payloads
each smaller than 1 MiB whose combined size exceeds 1 MiB, appended in turn to
an empty queue (allocations of distinct free addresses and locking succeeding),
both calls return `0` and `inBucketSize` becomes the combined size; it is a
third call that returns `-1`, and it leaves the memory as it was after the
second. -/
theorem C5_two_chunks (nodes : Heap DATA_BUF) (bufs : Heap (List u_char)) (e1 e2 e3 : Enq)
    (h1 : 0 < e1.size ∧ e1.size < 1048576) (h2 : 0 < e2.size ∧ e2.size < 1048576)
    (hsum : e1.size + e2.size > 1048576)
    (hsys1 : e1.sysOk = true) (hsys2 : e2.sysOk = true)
    (hdata1 : e1.size.toNat ≤ e1.data.length) (hdata2 : e2.size.toNat ≤ e2.data.length)
    (hf1 : e1.fresh ⟨nodes, bufs, SEND_DATA.empty⟩ = true)
    (hf2 : e2.fresh ⟨nodes, bufs, SEND_DATA.empty⟩ = true)
    (hned : e1.mallocD ≠ e2.mallocD) (hneb : e1.mallocData ≠ e2.mallocData) :
    ∃ s1 s2, e1.call ⟨nodes, bufs, SEND_DATA.empty⟩ = some (0, s1) ∧
      e2.call s1 = some (0, s2) ∧
      (s2.sd.inBucketSize : Int) = e1.size + e2.size ∧
      e3.call s2 = some (-1, s2) := by
  obtain ⟨s1, s2, hc1, hc2, _, _, _, hb2⟩ :=
    two_appends nodes bufs e1 e2 ⟨h1.1, le_of_lt h1.2⟩
      ⟨h2.1, by rw [INT_MAX_eq]; omega⟩ hsys1 hsys2 hdata1 hdata2 hf1 hf2 hned hneb
  refine ⟨s1, s2, hc1, hc2, hb2, ?_⟩
  apply Enq.call_overflow
  rw [MAX_BUCKET_SIZE_eq]
  omega

/-- Three chunks of 1 MiB minus one byte on the empty queue. -/
theorem C5_two_chunks_witness :
    ∃ s1 s2, (chunk 1).call State.init = some (0, s1) ∧
      (chunk 2).call s1 = some (0, s2) ∧
      (s2.sd.inBucketSize : Int) = (chunk 1).size + (chunk 2).size ∧
      (chunk 3).call s2 = some (-1, s2) :=
  C5_two_chunks [] [] (chunk 1) (chunk 2) (chunk 3) (by decide) (by decide) (by decide)
    (by decide) (by decide) (by simp only [chunk, List.length_replicate]; decide) (by simp only [chunk, List.length_replicate]; decide) (by decide) (by decide)
    (by decide) (by decide)

/-- C6 (failure atomicity).  For every memory and every outcome of the
allocation and lock primitives (`malloc` handing out `NULL` or a free address),
a call of `AppendSendData`, `GetSendData` or `FreeSendData` that does not
return `0` returns `-1` and leaves the whole memory, hence `top`, `bottom`,
`dno`, `inBucketSize` and the buffered packets, exactly as it was. -/
theorem C6_failure_atomic (c : Call) (s s' : State) (r : Int)
    (hf : ∀ e, c = .append e → e.fresh s = true)
    (hx : exec c s = some (r, s')) (hr : r ≠ 0) : r = -1 ∧ s' = s := by
  cases c with
  | append e => exact Enq.call_fail (hf e rfl) hx hr
  | get l =>
    simp only [exec, Option.map_eq_some'] at hx
    obtain ⟨⟨r0, s0, out⟩, hget, hEq⟩ := hx
    simp only [Prod.mk.injEq] at hEq
    obtain ⟨hr0, hs0⟩ := hEq
    subst hr0 hs0
    obtain ⟨h1, h2, _, _⟩ := GetSendData_fail hget hr
    exact ⟨h1, h2⟩
  | free l =>
    obtain ⟨h1, h2, _⟩ := FreeSendData_fail hx hr
    exact ⟨h1, h2⟩

/-- Failing calls on `stateA` and on the empty queue: no buffer for the
payload, lock not acquired, nothing to dequeue. -/
theorem C6_failure_atomic_witness :
    exec (.append { pktB with mallocData := none }) stateA = some (-1, stateA) ∧
      exec (.append { pktB with lockStatus := 22 }) stateA = some (-1, stateA) ∧
      exec (.get 22) stateA = some (-1, stateA) ∧
      exec (.get 0) State.init = some (-1, State.init) ∧
      exec (.free 22) stateA = some (-1, stateA) ∧
      ((-1 : Int) = -1 ∧ stateA = stateA) :=
  ⟨by decide, by decide, by decide, by decide, by decide,
    C6_failure_atomic (.append { pktB with mallocData := none }) stateA stateA (-1)
      (fun e he => by cases he; decide) (by decide) (by decide)⟩

/-- The last node of a chain has `next == NULL`. -/
theorem Linked.last_node {nodes : Heap DATA_BUF} {k : Pkt} {ks : List Pkt} :
    ∀ {prev : Option Nat}, Linked nodes prev (ks ++ [k]) →
      ∃ pv, nodes.get k.addr = some ⟨none, pv, k.t, k.size, some k.dptr⟩ := by
  induction ks with
  | nil =>
    intro prev hl
    exact ⟨prev, by simpa using hl.1⟩
  | cons k0 ks ih =>
    intro prev hl
    exact ih hl.2

/-- C7 (enqueue postcondition).  In every reachable state, for a payload of
`0 < size` (a C `int`) and `malloc` handing out free addresses, when
`AppendSendData` returns `0` the buffered packets are the former ones in the
same order followed by one packet with the submitted size and the submitted
bytes, which is the node `bottom` points to; `dno` has grown by exactly 1 and
`inBucketSize` by exactly `size`. -/
theorem C7_enqueue_post (s s' : State) (e : Enq) (hreach : Reachable s)
    (ha : e.admissible s = true) (hc : e.call s = some (0, s')) :
    s'.packets = s.packets ++ [(e.size, some e.payload)] ∧
      (e.payload.length : Int) = e.size ∧
      (∃ d n, s'.sd.bottom = some d ∧ s'.nodes.get d = some n ∧ n.next = none ∧
        n.size = e.size ∧ n.data.bind s'.bufs.get = some e.payload) ∧
      s'.sd.dno = s.sd.dno + 1 ∧
      (s'.sd.inBucketSize : Int) = s.sd.inBucketSize + e.size := by
  obtain ⟨ks, hR, hC⟩ := hreach.inv
  obtain ⟨k, hksz, hkb, hR', _, hdno, hib⟩ := append_step hR hC ha hc
  obtain ⟨_, _, _, _, hsz⟩ := Enq.call_zero_inv hc
  refine ⟨?_, Enq.payload_length hsz, ?_, hdno, hib⟩
  · rw [hR'.packets_eq, hR.packets_eq]
    simp [Pkt.view, hksz, hkb]
  · obtain ⟨pv, hnode⟩ := hR'.linked.last_node
    refine ⟨k.addr, _, by simpa using hR'.bottom, hnode, rfl, hksz, ?_⟩
    have := hR'.bytes k (by simp)
    simpa [hkb] using this

/-- Appending `pktB` to `stateA` gives `stateAB`. -/
theorem C7_enqueue_post_witness :
    stateAB.packets = stateA.packets ++ [(pktB.size, some pktB.payload)] ∧
      (pktB.payload.length : Int) = pktB.size ∧
      (∃ d n, stateAB.sd.bottom = some d ∧ stateAB.nodes.get d = some n ∧ n.next = none ∧
        n.size = pktB.size ∧ n.data.bind stateAB.bufs.get = some pktB.payload) ∧
      stateAB.sd.dno = stateA.sd.dno + 1 ∧
      (stateAB.sd.inBucketSize : Int) = stateA.sd.inBucketSize + pktB.size :=
  C7_enqueue_post stateA stateAB pktB Reachable.of_stateA (by decide) (by decide)

/-- C8 (dequeue postcondition).  In every reachable state, when `GetSendData`
returns `0` the values stored in `*size` and `*data` are the size of the head
packet and a pointer to its bytes, the packets left are the former ones
without the head, in the same order; the new head has `before == NULL`, `top`
and `bottom` are `NULL` when no packet is left; `dno` has dropped by exactly 1
and `inBucketSize` by exactly the returned size. -/
theorem C8_dequeue_post (s s' : State) (l : Int) (out : Option (Int × Option Nat))
    (hreach : Reachable s) (hc : GetSendData l s = some (0, s', out)) :
    ∃ sz p bytes, out = some (sz, some p) ∧ s'.bufs.get p = some bytes ∧
      s.packets = (sz, some bytes) :: s'.packets ∧
      (∀ a n, s'.sd.top = some a → s'.nodes.get a = some n → n.before = none) ∧
      (s'.packets = [] → s'.sd.top = none ∧ s'.sd.bottom = none) ∧
      s'.sd.dno + 1 = s.sd.dno ∧
      (s'.sd.inBucketSize : Int) + sz = s.sd.inBucketSize := by
  obtain ⟨ks, hR, hC⟩ := hreach.inv
  have hl : l = 0 := by
    by_contra hl
    rw [GetSendData_lock s hl] at hc
    simp at hc
  subst hl
  cases ks with
  | nil =>
    have htop : s.sd.top = none := by simpa using hR.top
    rw [GetSendData_empty 0 htop] at hc
    simp at hc
  | cons k ks =>
    obtain ⟨s1, hget, hR1, hbufs, _, hdno, hib⟩ := hR.get_ok
    rw [hc] at hget
    simp only [Option.some.injEq, Prod.mk.injEq, true_and] at hget
    obtain ⟨hs, hout⟩ := hget
    subst hs
    obtain ⟨_, hd, hb⟩ := hC.get_exact hdno hib
    refine ⟨k.size, k.dptr, k.bytes, hout, ?_, ?_, ?_, ?_, hd, hb⟩
    · rw [hbufs]
      exact hR.bytes k (List.mem_cons_self _ _)
    · rw [hR.packets_eq, hR1.packets_eq]
      simp [Pkt.view]
    · intro a n ha hn
      cases ks with
      | nil =>
        have : s'.sd.top = none := by simpa using hR1.top
        rw [this] at ha
        cases ha
      | cons k1 rest =>
        have htop : s'.sd.top = some k1.addr := by simpa using hR1.top
        rw [htop] at ha
        cases ha
        have := hR1.linked.1
        rw [hn] at this
        cases this
        rfl
    · intro hnil
      rw [hR1.packets_eq] at hnil
      have hks : ks = [] := by simpa using hnil
      subst hks
      exact ⟨by simpa using hR1.top, by simpa using hR1.bottom⟩

/-- Dequeuing from `stateAB` hands out `pktA`. -/
theorem C8_dequeue_post_witness :
    ∃ s', GetSendData 0 stateAB = some (0, s', some (2, some 1)) ∧
      ∃ sz p bytes, some (2, some 1) = some (sz, some p) ∧ s'.bufs.get p = some bytes ∧
        stateAB.packets = (sz, some bytes) :: s'.packets ∧
        (∀ a n, s'.sd.top = some a → s'.nodes.get a = some n → n.before = none) ∧
        (s'.packets = [] → s'.sd.top = none ∧ s'.sd.bottom = none) ∧
        s'.sd.dno + 1 = stateAB.sd.dno ∧
        (s'.sd.inBucketSize : Int) + sz = stateAB.sd.inBucketSize :=
  ⟨{ nodes := [(2, ⟨none, none, 101, 3, some 2⟩)], bufs := stateAB.bufs,
     sd := ⟨some 2, some 2, 1, 3⟩ }, by decide,
    C8_dequeue_post stateAB _ 0 _ Reachable.of_stateAB (by decide)⟩

/-- C9 (`GetSendData` fails exactly on an empty queue).  In every reachable
state, with the lock acquired, the call returns `-1` (nothing written, memory
untouched) if and only if no packet is buffered, which is when `top` is `NULL`;
otherwise it returns `0` and stores a size and a pointer to allocated bytes. -/
theorem C9_empty_iff (s : State) (hreach : Reachable s) :
    ∃ r s' out, GetSendData 0 s = some (r, s', out) ∧
      (r = -1 ↔ s.packets = []) ∧ (s.packets = [] ↔ s.sd.top = none) ∧
      (r = -1 → s' = s ∧ out = none) ∧
      (r ≠ -1 → r = 0 ∧ ∃ sz p bytes, out = some (sz, some p) ∧
        s'.bufs.get p = some bytes) := by
  obtain ⟨ks, hR, _⟩ := hreach.inv
  cases ks with
  | nil =>
    have htop : s.sd.top = none := by simpa using hR.top
    refine ⟨-1, s, none, GetSendData_empty 0 htop, ?_, ?_, fun _ => ⟨rfl, rfl⟩, ?_⟩
    · simp [hR.packets_eq]
    · simp [hR.packets_eq, htop]
    · intro h
      exact absurd rfl h
  | cons k ks =>
    have htop : s.sd.top = some k.addr := by simpa using hR.top
    obtain ⟨s1, hget, _, hbufs, _, _, _⟩ := hR.get_ok
    refine ⟨0, s1, _, hget, ?_, ?_, ?_, ?_⟩
    · simp [hR.packets_eq]
    · simp [hR.packets_eq, htop]
    · intro h
      cases h
    · intro _
      refine ⟨rfl, k.size, k.dptr, k.bytes, rfl, ?_⟩
      rw [hbufs]
      exact hR.bytes k (List.mem_cons_self _ _)

/-- The two-packet queue `stateAB`. -/
theorem C9_empty_iff_witness :
    ∃ r s' out, GetSendData 0 stateAB = some (r, s', out) ∧
      (r = -1 ↔ stateAB.packets = []) ∧ (stateAB.packets = [] ↔ stateAB.sd.top = none) ∧
      (r = -1 → s' = stateAB ∧ out = none) ∧
      (r ≠ -1 → r = 0 ∧ ∃ sz p bytes, out = some (sz, some p) ∧
        s'.bufs.get p = some bytes) :=
  C9_empty_iff stateAB Reachable.of_stateAB

/-- A run of calls on a counted well-formed queue: a call is accepted exactly
when the bytes counted before it do not exceed `MAX_BUCKET_SIZE`. -/
theorem appendRun_admit {es : List Enq} :
    ∀ {s : State} {ks : List Pkt}, Rep s ks → Counted s ks → admissibleRun s es = true →
      (∀ e ∈ es, e.sysOk = true ∧ e.size.toNat ≤ e.data.length) →
      ∃ rs s', appendRun s es = some (rs, s') ∧ rs.length = es.length ∧
        (s'.sd.inBucketSize : Int) = s.sd.inBucketSize + accepted es rs ∧
        ∀ i, i < es.length →
          ((s.sd.inBucketSize : Int) + accepted (es.take i) (rs.take i) ≤ MAX_BUCKET_SIZE →
            rs[i]? = some 0) ∧
          ((s.sd.inBucketSize : Int) + accepted (es.take i) (rs.take i) > MAX_BUCKET_SIZE →
            ∀ j, i ≤ j → j < es.length → rs[j]? = some (-1)) := by
  induction es with
  | nil =>
    intro s ks _ _ _ _
    exact ⟨[], s, rfl, rfl, by simp [accepted], fun i hi => absurd hi (Nat.not_lt_zero i)⟩
  | cons e es ih =>
    intro s ks hR hC hadm hall
    have hall' : ∀ e' ∈ es, e'.sysOk = true ∧ e'.size.toNat ≤ e'.data.length :=
      fun e' he' => hall e' (List.mem_cons_of_mem _ he')
    by_cases hover : s.sd.inBucketSize > MAX_BUCKET_SIZE
    · have hcall := e.call_overflow hover
      have hadm' : admissibleRun s es = true := by
        simp only [admissibleRun, hcall, Bool.and_eq_true] at hadm
        exact hadm.2
      obtain ⟨rs, s', hrun, hlen, hib, hidx⟩ := ih hR hC hadm' hall'
      have hoverZ : (s.sd.inBucketSize : Int) > MAX_BUCKET_SIZE := by exact_mod_cast hover
      have hrest : ∀ j, j < es.length → rs[j]? = some (-1) := by
        intro j hj
        have h0 : 0 < es.length := Nat.lt_of_le_of_lt (Nat.zero_le j) hj
        refine (hidx 0 h0).2 ?_ j (Nat.zero_le j) hj
        simpa [accepted] using hoverZ
      refine ⟨-1 :: rs, s', by simp [appendRun, hcall, hrun], by simp [hlen], ?_, ?_⟩
      · simpa [accepted] using hib
      · intro i hi
        cases i with
        | zero =>
          refine ⟨fun h => ?_, fun _ j _ hj => ?_⟩
          · simp only [List.take_zero, accepted, add_zero] at h
            omega
          · cases j with
            | zero => simp
            | succ j' =>
              simp only [List.getElem?_cons_succ]
              exact hrest j' (by simpa using hj)
        | succ i' =>
          have hi' : i' < es.length := by simpa using hi
          refine ⟨fun h => ?_, fun _ j hij hj => ?_⟩
          · simp only [List.getElem?_cons_succ]
            refine (hidx i' hi').1 ?_
            simpa [accepted] using h
          · cases j with
            | zero => exact absurd hij (Nat.not_succ_le_zero i')
            | succ j' =>
              simp only [List.getElem?_cons_succ]
              exact hrest j' (by simpa using hj)
    · have hroom : s.sd.inBucketSize ≤ MAX_BUCKET_SIZE := Nat.not_lt.1 hover
      have hroomZ : (s.sd.inBucketSize : Int) ≤ MAX_BUCKET_SIZE := by exact_mod_cast hroom
      have hadm0 : e.admissible s = true := by
        simp only [admissibleRun, Bool.and_eq_true] at hadm
        exact hadm.1
      obtain ⟨hsys, hdata⟩ := hall e (List.mem_cons_self _ _)
      simp only [Enq.sysOk, Bool.and_eq_true, decide_eq_true_eq,
        Option.isSome_iff_exists] at hsys
      obtain ⟨⟨⟨d, hd⟩, ⟨b, hb⟩⟩, hl⟩ := hsys
      obtain ⟨hf, hpos, _⟩ := Enq.admissible_iff.1 hadm0
      obtain ⟨s1, hcall, _⟩ := hR.append_ok hroom hd hb hl ⟨le_of_lt hpos, hdata⟩ hf
      obtain ⟨k, _, _, hR1, hC1, _, hib1⟩ := append_step hR hC hadm0 hcall
      have hadm' : admissibleRun s1 es = true := by
        simp only [admissibleRun, hcall, Bool.and_eq_true] at hadm
        exact hadm.2
      obtain ⟨rs, s', hrun, hlen, hib, hidx⟩ := ih hR1 hC1 hadm' hall'
      refine ⟨0 :: rs, s', by simp [appendRun, hcall, hrun], by simp [hlen], ?_, ?_⟩
      · simp only [accepted, if_true]
        rw [hib, hib1]
        ring
      · intro i hi
        cases i with
        | zero =>
          refine ⟨fun _ => by simp, fun h => ?_⟩
          simp only [List.take_zero, accepted, add_zero] at h
          omega
        | succ i' =>
          have hi' : i' < es.length := by simpa using hi
          have hacc : (s.sd.inBucketSize : Int) +
              accepted ((e :: es).take (i' + 1)) ((0 :: rs).take (i' + 1)) =
              s1.sd.inBucketSize + accepted (es.take i') (rs.take i') := by
            simp only [List.take_succ_cons, accepted, if_true]
            rw [hib1]
            ring
          rw [hacc]
          refine ⟨fun h => ?_, fun h j hij hj => ?_⟩
          · simp only [List.getElem?_cons_succ]
            exact (hidx i' hi').1 h
          · cases j with
            | zero => exact absurd hij (Nat.not_succ_le_zero i')
            | succ j' =>
              simp only [List.getElem?_cons_succ]
              exact (hidx i' hi').2 h j' (Nat.le_of_succ_le_succ hij) (by simpa using hj)

/-- C10 (overflow boundary over a run of enqueues).  For every run of
`AppendSendData` calls on an initially empty queue, with `0 < size`, `size`
bytes readable, allocations (of free addresses) and locking succeeding, every
call returns: the call number `i` returns `0` whenever the sizes accepted before
it add up to at most `MAX_BUCKET_SIZE` (so the call that takes the sum past
1 MiB is itself accepted), and once the accepted sizes add up to more, that call
and every later one return `-1`.  `inBucketSize` ends as the sum of the
accepted sizes. -/
theorem C10_overflow_boundary (nodes : Heap DATA_BUF) (bufs : Heap (List u_char))
    (es : List Enq) (hadm : admissibleRun ⟨nodes, bufs, SEND_DATA.empty⟩ es = true)
    (hall : ∀ e ∈ es, e.sysOk = true ∧ e.size.toNat ≤ e.data.length) :
    ∃ rs s, appendRun ⟨nodes, bufs, SEND_DATA.empty⟩ es = some (rs, s) ∧
      rs.length = es.length ∧ (s.sd.inBucketSize : Int) = accepted es rs ∧
      ∀ i, i < es.length →
        (accepted (es.take i) (rs.take i) ≤ MAX_BUCKET_SIZE → rs[i]? = some 0) ∧
        (accepted (es.take i) (rs.take i) > MAX_BUCKET_SIZE →
          ∀ j, i ≤ j → j < es.length → rs[j]? = some (-1)) := by
  obtain ⟨rs, s, hrun, hlen, hib, hidx⟩ :=
    appendRun_admit (Rep.empty_queue nodes bufs) (Counted.zero_counters nodes bufs) hadm hall
  refine ⟨rs, s, hrun, hlen, ?_, ?_⟩
  · simpa [SEND_DATA.empty] using hib
  · intro i hi
    have := hidx i hi
    simpa [SEND_DATA.empty] using this

/-- The run `pktA`, `pktB` on the empty queue. -/
theorem C10_overflow_boundary_witness :
    admissibleRun State.init [pktA, pktB] = true ∧
      ∃ rs s, appendRun State.init [pktA, pktB] = some (rs, s) ∧
        rs.length = [pktA, pktB].length ∧
        (s.sd.inBucketSize : Int) = accepted [pktA, pktB] rs ∧
        ∀ i, i < [pktA, pktB].length →
          (accepted ([pktA, pktB].take i) (rs.take i) ≤ MAX_BUCKET_SIZE → rs[i]? = some 0) ∧
          (accepted ([pktA, pktB].take i) (rs.take i) > MAX_BUCKET_SIZE →
            ∀ j, i ≤ j → j < [pktA, pktB].length → rs[j]? = some (-1)) :=
  ⟨by decide, C10_overflow_boundary [] [] [pktA, pktB] (by decide) (by decide)⟩

/-! ## Fill, then empty -/

/-- A run of accepted admissible calls: the packets it links and what it adds
to the counters. -/
theorem appendAll_counted {es : List Enq} :
    ∀ {s s' : State} {ks : List Pkt}, Rep s ks → Counted s ks →
      admissibleRun s es = true → appendAll s es = some s' →
      ∃ ks', Rep s' (ks ++ ks') ∧ Counted s' (ks ++ ks') ∧
        ks'.map Pkt.size = es.map Enq.size ∧
        s'.sd.dno = s.sd.dno + es.length ∧
        (s'.sd.inBucketSize : Int) = s.sd.inBucketSize + (es.map Enq.size).sum := by
  induction es with
  | nil =>
    intro s s' ks hR hC _ happ
    simp only [appendAll, Option.some.injEq] at happ
    subst happ
    exact ⟨[], by simpa using hR, by simpa using hC, rfl, by simp, by simp⟩
  | cons e es ih =>
    intro s s' ks hR hC hadm happ
    cases hcall : e.call s with
    | none => simp [appendAll, hcall] at happ
    | some res =>
      obtain ⟨r, s1⟩ := res
      by_cases hr : r = 0
      · subst hr
        simp only [appendAll, hcall, if_true] at happ
        simp only [admissibleRun, hcall, Bool.and_eq_true] at hadm
        obtain ⟨k, hksz, _, hR1, hC1, hd1, hb1⟩ := append_step hR hC hadm.1 hcall
        obtain ⟨ks', hR', hC', hsz, hd, hb⟩ := ih hR1 hC1 hadm.2 happ
        refine ⟨k :: ks', by simpa using hR', by simpa using hC', ?_, ?_, ?_⟩
        · simp [hsz, hksz]
        · rw [hd, hd1]
          simp only [List.length_cons]
          omega
        · rw [hb, hb1]
          simp only [List.map_cons, List.sum_cons]
          ring
      · simp [appendAll, hcall, hr] at happ

/-- Dequeuing every packet of a counted queue: what it takes off the counters. -/
theorem getN_counted {ks : List Pkt} :
    ∀ {s : State}, Rep s ks → Counted s ks →
      ∃ s', getN ks.length s = some (ks.map Pkt.view, s') ∧ Rep s' [] ∧ Counted s' [] ∧
        s'.sd.dno + ks.length = s.sd.dno ∧
        (s'.sd.inBucketSize : Int) + sizeSum ks = s.sd.inBucketSize := by
  induction ks with
  | nil =>
    intro s hR hC
    exact ⟨s, rfl, hR, hC, rfl, by simp [sizeSum]⟩
  | cons k ks ih =>
    intro s hR hC
    obtain ⟨s1, hget, hR1, hbufs, _, hdno, hib⟩ := hR.get_ok
    obtain ⟨hC1, hd1, hb1⟩ := hC.get_exact hdno hib
    obtain ⟨s2, hrec, hR2, hC2, hd2, hb2⟩ := ih hR1 hC1
    refine ⟨s2, ?_, hR2, hC2, ?_, ?_⟩
    · have hb : s1.bufs.get k.dptr = some k.bytes := by
        rw [hbufs]
        exact hR.bytes k (List.mem_cons_self _ _)
      simp [getN, hget, hrec, hb, Pkt.view]
    · simp only [List.length_cons]
      omega
    · rw [sizeSum_cons]
      omega

theorem Reachable.of_state10 : Reachable state10 :=
  Reachable.step (c := .append pkt10) (r := 0) (Reachable.init [] []) (by decide) (by decide)

theorem Reachable.of_state30 : Reachable state30 :=
  Reachable.step (c := .append pkt20) (r := 0) Reachable.of_state10 (by decide) (by decide)

theorem Reachable.of_state60 : Reachable state60 :=
  Reachable.step (c := .append pkt30) (r := 0) Reachable.of_state30 (by decide) (by decide)

/-- C11 (counters over a fill-then-empty run).  When the `AppendSendData`
calls `es` (each with `0 < size`, `malloc` handing out free addresses) all
return `0` on a newly created empty queue, `dno` is the number of calls and
`inBucketSize` the sum of their sizes; the next `es.length` calls of
`GetSendData`, the lock acquired each time, then all return `0` with the
submitted sizes in order and leave `dno = 0`, `inBucketSize = 0` and `top`,
`bottom` `NULL`. -/
theorem C11_fill_then_empty (nodes : Heap DATA_BUF) (bufs : Heap (List u_char))
    (es : List Enq) (s : State)
    (hadm : admissibleRun ⟨nodes, bufs, SEND_DATA.empty⟩ es = true)
    (happ : appendAll ⟨nodes, bufs, SEND_DATA.empty⟩ es = some s) :
    s.sd.dno = es.length ∧ (s.sd.inBucketSize : Int) = (es.map Enq.size).sum ∧
      ∃ rs s', getN es.length s = some (rs, s') ∧ rs.map Prod.fst = es.map Enq.size ∧
        s'.sd.dno = 0 ∧ s'.sd.inBucketSize = 0 ∧ s'.sd.top = none ∧ s'.sd.bottom = none := by
  obtain ⟨ks, hR, hC, hsz, hd, hb⟩ :=
    appendAll_counted (Rep.empty_queue nodes bufs) (Counted.zero_counters nodes bufs) hadm happ
  simp only [List.nil_append] at hR hC
  simp only [SEND_DATA.empty, Nat.zero_add, Nat.cast_zero, zero_add] at hd hb
  have hlen : ks.length = es.length := by
    simpa using congrArg List.length hsz
  have hsum : sizeSum ks = (es.map Enq.size).sum := by
    simp only [sizeSum, hsz]
  obtain ⟨s', hget, hR', _, hd', hb'⟩ := getN_counted hR hC
  rw [hlen] at hget hd'
  refine ⟨hd, hb, ks.map Pkt.view, s', hget, ?_, ?_, ?_, ?_, ?_⟩
  · rw [← hsz, List.map_map]
    rfl
  · omega
  · rw [hsum, hb] at hb'
    have : (s'.sd.inBucketSize : Int) = 0 := by linarith
    exact_mod_cast this
  · simpa using hR'.top
  · simpa using hR'.bottom

/-- Sizes 10, 20, 30: `dno = 3` and `inBucketSize = 60`, then both `0`. -/
theorem C11_fill_then_empty_witness :
    admissibleRun State.init [pkt10, pkt20, pkt30] = true ∧
      appendAll State.init [pkt10, pkt20, pkt30] = some state60 ∧
      (state60.sd.dno = 3 ∧ (state60.sd.inBucketSize : Int) = (10 + (20 + (30 + 0))) ∧
        ∃ rs s', getN 3 state60 = some (rs, s') ∧ rs.map Prod.fst = [10, 20, 30] ∧
          s'.sd.dno = 0 ∧ s'.sd.inBucketSize = 0 ∧ s'.sd.top = none ∧ s'.sd.bottom = none) :=
  ⟨by decide, by decide,
    C11_fill_then_empty [] [] [pkt10, pkt20, pkt30] state60 (by decide) (by decide)⟩

/-- C12 (drain idempotence).  On a well-formed queue, whatever the outcome
of the lock acquisition: `FreeSendData` with no packet buffered returns `0` and
leaves the memory as it is, and `FreeSendData` called a second time returns the
same value and leaves the same memory as the first call did (after a first
call that returned `0`, also when the second call would not get the lock). -/
theorem C12_drain_idempotent (s : State) (l : Int) (hwf : WellFormed s) :
    (s.packets = [] → FreeSendData l s = some (0, s)) ∧
      ∃ r s', FreeSendData l s = some (r, s') ∧ FreeSendData l s' = some (r, s') ∧
        (r = 0 → ∀ l', FreeSendData l' s' = some (0, s')) := by
  obtain ⟨ks, hR⟩ := hwf
  constructor
  · intro hnil
    rw [hR.packets_eq] at hnil
    have hks : ks = [] := by simpa using hnil
    subst hks
    have htop : s.sd.top = none := by simpa using hR.top
    simp [FreeSendData, htop]
  · by_cases hl : l = 0
    · subst hl
      obtain ⟨s', hfree, hR', _⟩ := hR.free_ok
      have htop : s'.sd.top = none := by simpa using hR'.top
      exact ⟨0, s', hfree, by simp [FreeSendData, htop],
        fun _ l' => by simp [FreeSendData, htop]⟩
    · cases htop : s.sd.top with
      | none =>
        exact ⟨0, s, by simp [FreeSendData, htop], by simp [FreeSendData, htop],
          fun _ l' => by simp [FreeSendData, htop]⟩
      | some d =>
        exact ⟨-1, s, by simp [FreeSendData, htop, hl], by simp [FreeSendData, htop, hl],
          fun h => by cases h⟩

/-- Draining the two-packet queue `stateAB` twice. -/
theorem C12_drain_idempotent_witness :
    (stateAB.packets = [] → FreeSendData 0 stateAB = some (0, stateAB)) ∧
      ∃ r s', FreeSendData 0 stateAB = some (r, s') ∧ FreeSendData 0 s' = some (r, s') ∧
        (r = 0 → ∀ l', FreeSendData l' s' = some (0, s')) :=
  C12_drain_idempotent stateAB 0 Reachable.of_stateAB.wellFormed

/-- C13 (`FreeSendData` releases what it removes), evaluated where it breaks:
on the reachable two-packet queue `stateAB` the call returns `0` and the two
payload buffers (addresses 1 and 2) are released, but the two `DATA_BUF` nodes
(addresses 1 and 2 of the node map) are still allocated, unchanged and no
longer reachable from the queue. -/
theorem C13_free_leaks_nodes :
    Reachable stateAB ∧
      ∃ s', FreeSendData 0 stateAB = some (0, s') ∧
        s'.bufs.get 1 = none ∧ s'.bufs.get 2 = none ∧
        s'.nodes.get 1 = some ⟨some 2, none, 100, 2, some 1⟩ ∧
        s'.nodes.get 2 = some ⟨none, some 1, 101, 3, some 2⟩ ∧
        s'.sd.top = none ∧ s'.sd.bottom = none :=
  ⟨Reachable.of_stateAB, { stateAB with bufs := [], sd := ⟨none, none, 2, 5⟩ }, by decide,
    by decide, by decide, by decide, by decide, by decide, by decide⟩

/-- Without interference the two-phase reading of `GetSendData` is
`GetSendData` itself. -/
theorem GetSendDataRace_same (l : Int) (s : State) :
    GetSendDataRace l s s = GetSendData l s := by
  unfold GetSendDataRace GetSendData GetSendDataLocked
  cases htop : s.sd.top with
  | none => rfl
  | some d =>
    by_cases hl : l = 0
    · simp [hl]
    · simp [hl]

/-- C14 (re-check of emptiness under the lock), evaluated where it breaks:
`GetSendData` tests `sd->top` on the one-packet queue `stateA`, another thread
then runs `FreeSendData` to completion, and `GetSendData` acquires the lock on
the emptied queue.  It does not test `sd->top` again: it goes on to
`d = sd->top; sd->top = d->next` with `d == NULL`, which has no defined result,
instead of returning `-1` with the memory untouched. -/
theorem C14_no_recheck_under_lock :
    stateA.sd.top ≠ none ∧ FreeSendData 0 stateA = some (0, stateAfreed) ∧
      stateAfreed.sd.top = none ∧ GetSendDataRace 0 stateA stateAfreed = none ∧
      GetSendDataRace 0 stateA stateAfreed ≠ some (-1, stateAfreed, none) :=
  ⟨by decide, by decide, by decide, by decide, by decide⟩

/-! ## The chain in both directions -/

theorem Linked.walkNext_eq {nodes : Heap DATA_BUF} {ks : List Pkt} :
    ∀ {prev : Option Nat} {n : Nat}, Linked nodes prev ks → ks.length < n →
      walkNext nodes n ((ks.head?).map Pkt.addr) = ks.map Pkt.addr := by
  induction ks with
  | nil =>
    intro prev n _ hn
    cases n with
    | zero => cases hn
    | succ f => simp [walkNext]
  | cons k ks ih =>
    intro prev n hl hn
    cases n with
    | zero => cases hn
    | succ f =>
      have hrec := ih (n := f) hl.2 (by simpa using hn)
      simp only [List.head?_cons, Option.map_some', walkNext, hl.1, List.map_cons]
      rw [hrec]

/-- The `before` field of a node of a chain points to the node ahead of it. -/
theorem Linked.before_at {nodes : Heap DATA_BUF} {k : Pkt} {post : List Pkt} :
    ∀ {pre : List Pkt} {prev : Option Nat}, Linked nodes prev (pre ++ k :: post) →
      ∃ nx, nodes.get k.addr =
        some ⟨nx, ((pre.getLast?).map Pkt.addr).or prev, k.t, k.size, some k.dptr⟩ := by
  intro pre
  induction pre with
  | nil =>
    intro prev hl
    exact ⟨_, by simpa using hl.1⟩
  | cons p pre ih =>
    intro prev hl
    obtain ⟨nx, hnx⟩ := ih hl.2
    refine ⟨nx, ?_⟩
    rw [hnx]
    cases pre with
    | nil => simp
    | cons q r =>
      rw [List.getLast?_cons_cons]
      cases hq : (q :: r).getLast? with
      | none => simp at hq
      | some x => simp

theorem Linked.walkBefore_eq {nodes : Heap DATA_BUF} (pre : List Pkt) :
    ∀ (post : List Pkt) {n : Nat}, Linked nodes none (pre ++ post) → pre.length < n →
      walkBefore nodes n ((pre.getLast?).map Pkt.addr) = (pre.map Pkt.addr).reverse := by
  induction pre using List.reverseRecOn with
  | nil =>
    intro post n _ hn
    cases n with
    | zero => cases hn
    | succ f => simp [walkBefore]
  | append_singleton pre k ih =>
    intro post n hl hn
    cases n with
    | zero => cases hn
    | succ f =>
      have hl' : Linked nodes none (pre ++ k :: post) := by
        simpa using hl
      obtain ⟨nx, hnx⟩ := hl'.before_at
      have hrec := ih (k :: post) (n := f) hl' (by simpa using hn)
      simp only [List.getLast?_concat, Option.map_some', walkBefore, hnx, Option.or_none,
        List.map_append, List.map_cons, List.map_nil, List.reverse_append, List.reverse_cons,
        List.reverse_nil, List.nil_append, List.singleton_append]
      rw [hrec]

/-- C15 (chain well-formedness).  In every reachable state `top` is `NULL`
iff `bottom` is; the node at `top` has `before == NULL` and the node at
`bottom` has `next == NULL`; following `next` from `top` visits pairwise
distinct allocated nodes, the first being `top` and the last `bottom`; and
following `before` from `bottom` visits the same nodes in reverse order. -/
theorem C15_chain_well_formed (s : State) (hreach : Reachable s) :
    (s.sd.top = none ↔ s.sd.bottom = none) ∧
      (∀ a, s.sd.top = some a → ∃ n, s.nodes.get a = some n ∧ n.before = none) ∧
      (∀ a, s.sd.bottom = some a → ∃ n, s.nodes.get a = some n ∧ n.next = none) ∧
      s.chain.Nodup ∧ (∀ a ∈ s.chain, s.nodes.get a ≠ none) ∧
      s.chain.head? = s.sd.top ∧ s.chain.getLast? = s.sd.bottom ∧
      s.chainBack = s.chain.reverse := by
  obtain ⟨ks, hR, _⟩ := hreach.inv
  have hlen : ks.length < s.nodes.size + 1 :=
    Nat.lt_succ_of_le (hR.linked.length_le hR.nodupAddr)
  have hchain : s.chain = ks.map Pkt.addr := by
    unfold State.chain
    rw [hR.top]
    exact hR.linked.walkNext_eq hlen
  have hback : s.chainBack = (ks.map Pkt.addr).reverse := by
    unfold State.chainBack
    rw [hR.bottom]
    exact Linked.walkBefore_eq ks [] (by simpa using hR.linked) hlen
  refine ⟨?_, ?_, ?_, ?_, ?_, ?_, ?_, ?_⟩
  · rw [hR.top, hR.bottom]
    cases ks with
    | nil => simp
    | cons k r => simp [List.getLast?_cons]
  · intro a ha
    cases ks with
    | nil =>
      rw [hR.top] at ha
      cases ha
    | cons k r =>
      have htop : s.sd.top = some k.addr := by simpa using hR.top
      rw [htop] at ha
      cases ha
      exact ⟨_, hR.linked.1, rfl⟩
  · intro a ha
    cases hgl : ks.getLast? with
    | none =>
      rw [hR.bottom, hgl] at ha
      cases ha
    | some k =>
      rw [hR.bottom, hgl] at ha
      cases ha
      have hdec := List.dropLast_append_getLast? (l := ks) k (by simp [hgl])
      have hl : Linked s.nodes none (ks.dropLast ++ [k]) := by
        rw [hdec]
        exact hR.linked
      obtain ⟨pv, hpv⟩ := hl.last_node
      exact ⟨_, hpv, rfl⟩
  · rw [hchain]
    exact hR.nodupAddr
  · intro a ha
    rw [hchain] at ha
    obtain ⟨k, hk, rfl⟩ := List.mem_map.1 ha
    exact hR.linked.allocated k hk
  · rw [hchain, hR.top]
    cases ks <;> simp
  · rw [hchain, hR.bottom]
    simp [List.getLast?_map]
  · rw [hback, hchain]

/-- The three-packet queue `state60`. -/
theorem C15_chain_well_formed_witness :
    (state60.sd.top = none ↔ state60.sd.bottom = none) ∧
      (∀ a, state60.sd.top = some a → ∃ n, state60.nodes.get a = some n ∧ n.before = none) ∧
      (∀ a, state60.sd.bottom = some a → ∃ n, state60.nodes.get a = some n ∧ n.next = none) ∧
      state60.chain.Nodup ∧ (∀ a ∈ state60.chain, state60.nodes.get a ≠ none) ∧
      state60.chain.head? = state60.sd.top ∧ state60.chain.getLast? = state60.sd.bottom ∧
      state60.chainBack = state60.chain.reverse :=
  C15_chain_well_formed state60 Reachable.of_state60

/-! ## Bounds on the counters and on the buffered bytes -/

theorem Rep.linked_sizes {s : State} {ks : List Pkt} (h : Rep s ks) :
    s.linked.map DATA_BUF.size = ks.map Pkt.size := by
  have hlen : ks.length < s.nodes.size + 1 :=
    Nat.lt_succ_of_le (h.linked.length_le h.nodupAddr)
  have hw := congrArg (List.map Prod.fst) (h.linked.walk_eq hlen)
  simp only [List.map_map] at hw
  rw [← h.top] at hw
  exact hw

theorem Rep.linkedBytes_eq {s : State} {ks : List Pkt} (h : Rep s ks) :
    s.linkedBytes = sizeSum ks := by
  simp only [State.linkedBytes, sizeSum, h.linked_sizes]

/-- A `GetSendData` that returns `0` on a counted well-formed queue. -/
theorem get_zero_inv {s s' : State} {ks : List Pkt} {l : Int}
    {out : Option (Int × Option Nat)} (hR : Rep s ks) (hC : Counted s ks)
    (hc : GetSendData l s = some (0, s', out)) :
    ∃ k ks', ks = k :: ks' ∧ out = some (k.size, some k.dptr) ∧ Rep s' ks' ∧ Counted s' ks' ∧
      s'.sd.dno + 1 = s.sd.dno ∧ (s'.sd.inBucketSize : Int) + k.size = s.sd.inBucketSize := by
  have hl : l = 0 := by
    by_contra hl
    rw [GetSendData_lock s hl] at hc
    simp at hc
  subst hl
  cases ks with
  | nil =>
    have htop : s.sd.top = none := by simpa using hR.top
    rw [GetSendData_empty 0 htop] at hc
    simp at hc
  | cons k ks =>
    obtain ⟨s1, hget, hR1, _, _, hdno, hib⟩ := hR.get_ok
    rw [hc] at hget
    simp only [Option.some.injEq, Prod.mk.injEq, true_and] at hget
    obtain ⟨hs, hout⟩ := hget
    subst hs
    obtain ⟨hC1, hd, hb⟩ := hC.get_exact hdno hib
    exact ⟨k, ks, rfl, hout, hR1, hC1, hd, hb⟩

/-- What a call does to the list of buffered packets. -/
theorem step_cases {s s' : State} {c : Call} {r : Int} {ks : List Pkt} (hR : Rep s ks)
    (hC : Counted s ks) (ha : c.admissible s = true) (hx : exec c s = some (r, s')) :
    s' = s ∨
      (∃ k, s.sd.inBucketSize ≤ MAX_BUCKET_SIZE ∧ Rep s' (ks ++ [k]) ∧ Counted s' (ks ++ [k])) ∨
      (∃ k ks', ks = k :: ks' ∧ Rep s' ks' ∧ Counted s' ks') ∨
      (Rep s' [] ∧ Counted s' []) := by
  cases c with
  | append e =>
    by_cases hr : r = 0
    · subst hr
      obtain ⟨k, _, _, hrep, hcnt, _, _⟩ := append_step hR hC ha hx
      exact Or.inr (Or.inl ⟨k, (Enq.call_zero_inv hx).1, hrep, hcnt⟩)
    · exact Or.inl (Enq.call_fail (Enq.admissible_iff.1 ha).1 hx hr).2
  | get l =>
    simp only [exec, Option.map_eq_some'] at hx
    obtain ⟨⟨r0, s0, out⟩, hget, hEq⟩ := hx
    simp only [Prod.mk.injEq] at hEq
    obtain ⟨hr0, hs0⟩ := hEq
    subst hr0 hs0
    by_cases hr : r0 = 0
    · subst hr
      obtain ⟨k, ks', hks, _, hR1, hC1, _, _⟩ := get_zero_inv hR hC hget
      exact Or.inr (Or.inr (Or.inl ⟨k, ks', hks, hR1, hC1⟩))
    · exact Or.inl (GetSendData_fail hget hr).2.1
  | free l =>
    simp only [exec] at hx
    by_cases hl : l = 0
    · subst hl
      obtain ⟨s1, hfree1, hrep, _, hdno, hib, _⟩ := hR.free_ok
      rw [hx] at hfree1
      have hs : s' = s1 := by
        simp only [Option.some.injEq, Prod.mk.injEq] at hfree1
        exact hfree1.2
      subst hs
      exact Or.inr (Or.inr (Or.inr ⟨hrep, hC.free_kept hdno hib⟩))
    · obtain ⟨r1, hfree1⟩ := FreeSendData_lock s hl
      rw [hx] at hfree1
      simp only [Option.some.injEq, Prod.mk.injEq] at hfree1
      exact Or.inl hfree1.2

/-- In reachable states the packets ahead of the newest one fit in the byte
budget. -/
theorem Reachable.inv_bounded {s : State} (h : Reachable s) :
    ∃ ks, Rep s ks ∧ Counted s ks ∧ sizeSum ks.dropLast ≤ MAX_BUCKET_SIZE := by
  induction h with
  | init nodes bufs =>
    exact ⟨[], Rep.empty_queue nodes bufs, Counted.zero_counters nodes bufs, by simp [sizeSum]⟩
  | @step s0 s1 c r _ ha hx ih =>
    obtain ⟨ks, hR, hC, hB⟩ := ih
    rcases step_cases hR hC ha hx with hs | ⟨k, hroom, hR', hC'⟩ | ⟨k, ks', hks, hR', hC'⟩ |
      ⟨hR', hC'⟩
    · subst hs
      exact ⟨ks, hR, hC, hB⟩
    · refine ⟨ks ++ [k], hR', hC', ?_⟩
      rw [List.dropLast_concat]
      have := hC.bytes
      have hroomZ : (s0.sd.inBucketSize : Int) ≤ MAX_BUCKET_SIZE := by exact_mod_cast hroom
      omega
    · refine ⟨ks', hR', hC', ?_⟩
      subst hks
      cases ks' with
      | nil => simp [sizeSum]
      | cons k1 r =>
        rw [List.dropLast_cons_of_ne_nil (by simp), sizeSum_cons] at hB
        have := (hC.pos k (List.mem_cons_self _ _)).1
        omega
    · exact ⟨[], hR', hC', by simp [sizeSum]⟩

/-- C16 (counters never underflow).  In every reachable state `dno` is at
least the number of linked packets and `inBucketSize` at least the sum of their
sizes; so whenever `GetSendData` returns `0`, `dno` was at least 1 and
`inBucketSize` at least the returned size, and the decrement and the
subtraction are exact, without wrapping below zero. -/
theorem C16_no_underflow (s : State) (hreach : Reachable s) :
    s.linked.length ≤ s.sd.dno ∧ s.linkedBytes ≤ s.sd.inBucketSize ∧
      ∀ l s' sz p, GetSendData l s = some (0, s', some (sz, p)) →
        1 ≤ s.sd.dno ∧ 0 < sz ∧ sz ≤ s.sd.inBucketSize ∧
        (s'.sd.dno : Int) = s.sd.dno - 1 ∧
        (s'.sd.inBucketSize : Int) = s.sd.inBucketSize - sz := by
  obtain ⟨ks, hR, hC⟩ := hreach.inv
  refine ⟨?_, ?_, ?_⟩
  · rw [hR.linked_length]
    exact hC.dno
  · rw [hR.linkedBytes_eq]
    exact hC.bytes
  · intro l s' sz p hc
    obtain ⟨k, ks', hks, hout, _, hC', hd, hb⟩ := get_zero_inv hR hC hc
    simp only [Option.some.injEq, Prod.mk.injEq] at hout
    obtain ⟨hsz, _⟩ := hout
    subst hsz
    subst hks
    have hpos := (hC.pos k (List.mem_cons_self _ _)).1
    refine ⟨by omega, hpos, by omega, by omega, by omega⟩

/-- The two-packet queue `stateAB`, from which `GetSendData` hands out `pktA`. -/
theorem C16_no_underflow_witness :
    GetSendData 0 stateAB = some (0, ⟨[(2, ⟨none, none, 101, 3, some 2⟩)], stateAB.bufs,
        ⟨some 2, some 2, 1, 3⟩⟩, some (2, some 1)) ∧
      (stateAB.linked.length ≤ stateAB.sd.dno ∧ stateAB.linkedBytes ≤ stateAB.sd.inBucketSize ∧
        ∀ l s' sz p, GetSendData l stateAB = some (0, s', some (sz, p)) →
          1 ≤ stateAB.sd.dno ∧ 0 < sz ∧ sz ≤ stateAB.sd.inBucketSize ∧
          (s'.sd.dno : Int) = stateAB.sd.dno - 1 ∧
          (s'.sd.inBucketSize : Int) = stateAB.sd.inBucketSize - sz) :=
  ⟨by decide, C16_no_underflow stateAB Reachable.of_stateAB⟩

/-- C17 (boundedness in sequential use).  In every reachable state the sizes
of the packets linked in the queue add up to at most `MAX_BUCKET_SIZE = 1048576`
plus the size of the packet `bottom` points to; that is, the packets other
than the newest add up to at most 1 MiB. -/
theorem C17_bounded (s : State) (hreach : Reachable s) :
    MAX_BUCKET_SIZE = 1048576 ∧ s.linkedBytes ≤ MAX_BUCKET_SIZE + s.tailSize ∧
      (s.linked.dropLast.map DATA_BUF.size).sum ≤ MAX_BUCKET_SIZE := by
  obtain ⟨ks, hR, hC, hB⟩ := hreach.inv_bounded
  have hdrop : (s.linked.dropLast.map DATA_BUF.size).sum = sizeSum ks.dropLast := by
    rw [List.map_dropLast, hR.linked_sizes, ← List.map_dropLast]
    rfl
  refine ⟨MAX_BUCKET_SIZE_eq, ?_, by rw [hdrop]; exact hB⟩
  rw [hR.linkedBytes_eq]
  cases hgl : ks.getLast? with
  | none =>
    have hks : ks = [] := List.getLast?_eq_none_iff.1 hgl
    subst hks
    have hbot : s.sd.bottom = none := by simpa using hR.bottom
    simp [sizeSum, State.tailSize, hbot]
  | some k =>
    have hdec := List.dropLast_append_getLast? (l := ks) k (by simp [hgl])
    have hl : Linked s.nodes none (ks.dropLast ++ [k]) := by
      rw [hdec]
      exact hR.linked
    obtain ⟨pv, hpv⟩ := hl.last_node
    have hbot : s.sd.bottom = some k.addr := by simpa [hgl] using hR.bottom
    have htail : s.tailSize = k.size := by
      simp [State.tailSize, hbot, hpv]
    have hsum : sizeSum ks = sizeSum ks.dropLast + k.size := by
      conv_lhs => rw [← hdec]
      rw [sizeSum_append]
      simp [sizeSum]
    rw [htail, hsum]
    omega

/-- The three-packet queue `state60`. -/
theorem C17_bounded_witness :
    MAX_BUCKET_SIZE = 1048576 ∧ state60.linkedBytes ≤ MAX_BUCKET_SIZE + state60.tailSize ∧
      (state60.linked.dropLast.map DATA_BUF.size).sum ≤ MAX_BUCKET_SIZE :=
  C17_bounded state60 Reachable.of_state60

/-- C18 (reuse after a drain), evaluated where it breaks: a packet of 1 MiB
plus one byte is appended to the empty queue (accepted, being the first) and
`FreeSendData` then empties the queue; `inBucketSize` still reads 1048577, so
the next `AppendSendData`, here of the three-byte `pktB` with allocation and
locking succeeding, returns `-1` on the empty queue and buffers nothing. -/
theorem C18_overflow_after_drain :
    ∃ s1 s2, big.call State.init = some (0, s1) ∧ FreeSendData 0 s1 = some (0, s2) ∧
      Reachable s2 ∧ s2.sd.top = none ∧ s2.packets = [] ∧ s2.sd.inBucketSize = 1048577 ∧
      pktB.sysOk = true ∧ pktB.call s2 = some (-1, s2) := by
  obtain ⟨s1, hc1, hR1, _, hib1, _, _⟩ :=
    (Rep.empty_queue [] []).append_ok (e := big) (d := 1) (b := 1) (by decide) rfl rfl rfl
      ⟨by decide, by simp only [big, List.length_replicate]; decide⟩ (by decide)
  have hreach1 : Reachable s1 :=
    Reachable.step (c := .append big) (r := 0) (Reachable.init [] []) (by decide) hc1
  obtain ⟨s2, hfree, hR2, _, _, hib2, _⟩ := hR1.free_ok
  have hreach2 : Reachable s2 :=
    Reachable.step (c := .free 0) (r := 0) hreach1 rfl hfree
  have hib : s2.sd.inBucketSize = 1048577 := by
    rw [hib2, hib1]
    decide
  refine ⟨s1, s2, hc1, hfree, hreach2, by simpa using hR2.top, by simp [hR2.packets_eq], hib,
    by decide, ?_⟩
  apply Enq.call_overflow
  rw [hib]
  decide

end SendBuf
